import Mathlib

/-!
# Flw_Piano: a piano keyboard widget

A shallow embedding of `src/Flw_Piano.cpp` (the widget `Flw_Piano` and its private
part `Flw_Piano::Impl`) and the properties of its layout engine, its press/release
state machine and its pointer input router.

Conventions of the embedding:

* `unsigned` values are natural numbers; the one place where unsigned wrap-around can be
  reached (`++nextkey` in `next_white_key`) is reduced modulo `2 ^ 32` explicitly.
* `int` values in the reference layout (`key_position`, `key_width`, the nominal width)
  are 32-bit two's complement: every operation is followed by `int32`, so an overflow wraps
  around as it does in the compiled code. Pixel coordinates are mathematical integers;
  `int` division truncates (`Int.tdiv`).
* `double` values are IEEE binary64: a finite value is the rational number it denotes and
  every operation rounds its exact result to the nearest number with a 53-bit significand,
  ties to even (`round_double`); `none` is an infinity or a NaN. The exponent range of
  binary64 is not reached by quotients and products of `int` values and is not modelled.
  `lround` rounds half away from zero; its result for an infinity or a NaN, which the C
  standard leaves unspecified, is taken as 0 (what is left of the C library's `LONG_MIN`
  once `create_keys` has converted it to `int`).
* A `Key_Button *` stored in `keys_` is the button it points to; the vector of pointers is
  a list, a null pointer is `none`.
* `Q->do_callback()` appends the content of the last-event slot, as the host callback reads
  it, to the log `callbacks_`; the host callback does not call back into the widget.
* The toolkit state of the enclosing `Fl_Group` (its rectangle) is carried in the fields
  `x`, `y`, `w`, `h` of `Impl`; `Fl::event_x()` and `Fl::event_y()` are arguments.
-/

namespace Flw_Piano

/-! ## Data model -/

/-- Colour of a key: `enum Key_Color { Key_White, Key_Black }`. -/
inductive Key_Color where
  | Key_White
  | Key_Black
deriving DecidableEq, Repr

open Key_Color

/-- Width of a white key in the reference layout. -/
def white_keywidth : Int := 24

/-- Width of a black key in the reference layout. -/
def black_keywidth : Int := 14

/-- The value an `int` holds after an operation whose exact result is `z`: 32 bits, two's
complement, an overflow wraps around. -/
def int32 (z : Int) : Int := (z + 2 ^ 31) % 2 ^ 32 - 2 ^ 31

/-- Kind of the last fired event: `enum Piano_Event`. -/
inductive Piano_Event where
  | PIANO_PRESS
  | PIANO_RELEASE
deriving DecidableEq, Repr

open Piano_Event

/-- Toolkit event numbers used by `handle_key` (values of FLTK's `Fl_Event`). -/
def FL_PUSH : Int := 1

/-- Toolkit event number of a pointer release. -/
def FL_RELEASE : Int := 2

/-- Toolkit event number of a pointer drag. -/
def FL_DRAG : Int := 5

/-- The value `(unsigned)-1`, which `pushed_key_` holds when no key is pushed. -/
def unsigned_minus_one : Nat := 2 ^ 32 - 1

/-- A key control: the rectangle, on/off value, colours and box style of the toolkit button
together with the `key_` member of `Key_Button`. -/
structure Key_Button where
  x : Int
  y : Int
  w : Int
  h : Int
  key_ : Nat
  value_ : Bool
  color_ : Nat
  selection_color_ : Nat
  box_ : Nat
  visible_focus_ : Bool
deriving DecidableEq, Repr

/-- Accessor `Key_Button::piano_key`. -/
def Key_Button.piano_key (btn : Key_Button) : Nat := btn.key_

/-- The widget state: the members of `Flw_Piano::Impl`, the rectangle of the enclosing group,
the static last-event slot and the log of the callbacks made so far. -/
structure Impl where
  x : Int
  y : Int
  w : Int
  h : Int
  box_ : Nat × Nat
  bg_ : Nat × Nat
  keys_ : List Key_Button
  pushed_key_ : Nat
  event_type_ : Piano_Event
  event_key_ : Nat
  callbacks_ : List (Piano_Event × Nat)
deriving DecidableEq, Repr

/-! ## Layout engine -/

/-- Colour of key `key`: the static `Impl::key_color(unsigned)`. -/
def Impl.key_color (key : Nat) : Key_Color :=
  let n := key % 12
  let n := if n < 5 then n else n - 1
  if n &&& 1 ≠ 0 then Key_Black else Key_White

/-- The loop `while (key_color(nextkey) != Key_White) ++nextkey;` of `next_white_key`,
with the unsigned increment. It stops: a black key is followed by a white one. -/
def Impl.next_white_key_loop (nextkey : Nat) : Nat :=
  if Impl.key_color nextkey ≠ Key_White then
    Impl.next_white_key_loop ((nextkey + 1) % 2 ^ 32)
  else
    nextkey
termination_by
  if Impl.key_color nextkey = Key_White then 0
  else if nextkey < 2 ^ 32 then 1
  else if Impl.key_color ((nextkey + 1) % 2 ^ 32) = Key_White then 1 else 2
decreasing_by
  rename_i h
  have hlt : (nextkey + 1) % 2 ^ 32 < 2 ^ 32 := Nat.mod_lt _ (by decide)
  by_cases hn : nextkey < 2 ^ 32
  · have hw : Impl.key_color ((nextkey + 1) % 2 ^ 32) = Key_White := by
      have h1 : ∀ m, m < 12 → Impl.key_color m ≠ Key_White →
          Impl.key_color (m + 1) = Key_White := by decide
      have hmod : ∀ m, Impl.key_color m = Impl.key_color (m % 12) := by
        intro m; simp [Impl.key_color]
      by_cases hlast : nextkey + 1 < 2 ^ 32
      · rw [Nat.mod_eq_of_lt hlast]
        rw [hmod] at h
        have h2 := h1 (nextkey % 12) (Nat.mod_lt _ (by decide)) h
        rw [hmod] at h2 ⊢
        have : (nextkey + 1) % 12 = (nextkey % 12 + 1) % 12 := by omega
        rw [this]; exact h2
      · have : nextkey = 2 ^ 32 - 1 := by omega
        subst this; decide
    rw [if_pos hw, if_neg h, if_pos hn]; decide
  · by_cases h2 : Impl.key_color ((nextkey + 1) % 2 ^ 32) = Key_White
    · rw [if_pos h2, if_neg h, if_neg hn, if_pos h2]; decide
    · rw [if_neg h2, if_pos hlt, if_neg h, if_neg hn, if_neg h2]; decide

/-- The number of times the body `++nextkey` of the loop of `next_white_key` runs when the
loop is entered with `nextkey`: the same loop, counting. -/
def Impl.next_white_key_steps (nextkey : Nat) : Nat :=
  if Impl.key_color nextkey ≠ Key_White then
    Impl.next_white_key_steps ((nextkey + 1) % 2 ^ 32) + 1
  else
    0
termination_by
  if Impl.key_color nextkey = Key_White then 0
  else if nextkey < 2 ^ 32 then 1
  else if Impl.key_color ((nextkey + 1) % 2 ^ 32) = Key_White then 1 else 2
decreasing_by
  rename_i h
  have hlt : (nextkey + 1) % 2 ^ 32 < 2 ^ 32 := Nat.mod_lt _ (by decide)
  by_cases hn : nextkey < 2 ^ 32
  · have hw : Impl.key_color ((nextkey + 1) % 2 ^ 32) = Key_White := by
      have h1 : ∀ m, m < 12 → Impl.key_color m ≠ Key_White →
          Impl.key_color (m + 1) = Key_White := by decide
      have hmod : ∀ m, Impl.key_color m = Impl.key_color (m % 12) := by
        intro m; simp [Impl.key_color]
      by_cases hlast : nextkey + 1 < 2 ^ 32
      · rw [Nat.mod_eq_of_lt hlast]
        rw [hmod] at h
        have h2 := h1 (nextkey % 12) (Nat.mod_lt _ (by decide)) h
        rw [hmod] at h2 ⊢
        have : (nextkey + 1) % 12 = (nextkey % 12 + 1) % 12 := by omega
        rw [this]; exact h2
      · have : nextkey = 2 ^ 32 - 1 := by omega
        subst this; decide
    rw [if_pos hw, if_neg h, if_pos hn]; decide
  · by_cases h2 : Impl.key_color ((nextkey + 1) % 2 ^ 32) = Key_White
    · rw [if_pos h2, if_neg h, if_neg hn, if_pos h2]; decide
    · rw [if_neg h2, if_pos hlt, if_neg h, if_neg hn, if_neg h2]; decide

/-- Index of the first white key after `key`: `Impl::next_white_key`. -/
def Impl.next_white_key (key : Nat) : Nat :=
  Impl.next_white_key_loop ((key + 1) % 2 ^ 32)

/-- The three loops of `Impl::make_positions`, writing into the table `pos`. -/
def Impl.make_positions (pos : List Int) : List Int :=
  let pos := (List.range 7).foldl (fun pos i =>
    let index := i * 2
    let index := index - (if index > 4 then 1 else 0)
    pos.set index ((i : Int) * white_keywidth)) pos
  let pos := (List.range 2).foldl (fun pos i =>
    pos.set (1 + 2 * i) (15 + 2 * (i : Int) * black_keywidth)) pos
  let pos := (List.range 3).foldl (fun pos i =>
    pos.set (6 + 2 * i) (pos.getD 5 0 + 13 + 2 * (i : Int) * black_keywidth)) pos
  pos

/-- The reference table `keypos_`: `make_positions` run by the constructor on the
zero-initialised `static int table[12]`. -/
def Impl.keypos_ : List Int := Impl.make_positions (List.replicate 12 0)

/-- Reference x offset of key `key`: `Impl::key_position`. -/
def Impl.key_position (key : Nat) : Int :=
  int32 (Impl.keypos_.getD (key % 12) 0 +
    int32 (int32 (int32 ((key / 12 : Nat) : Int) * 7) * Impl.keypos_.getD 2 0))

/-- Reference width of key `key`: `Impl::key_width`. -/
def Impl.key_width (key : Nat) : Int :=
  if Impl.key_color key = Key_White then
    int32 (Impl.key_position (Impl.next_white_key key) - Impl.key_position key)
  else
    black_keywidth

/-- Nearest integer, halfway cases to the even one. -/
def round_half_even (m : ℚ) : Int :=
  if m - ⌊m⌋ < 1 / 2 then ⌊m⌋
  else if 1 / 2 < m - ⌊m⌋ then ⌊m⌋ + 1
  else if ⌊m⌋ % 2 = 0 then ⌊m⌋ else ⌊m⌋ + 1

/-- The binary64 number nearest to the exact value `q`, halfway cases to the even
significand: `q` is cut to 53 significant bits. -/
def round_double (q : ℚ) : ℚ :=
  if q = 0 then 0
  else (round_half_even (q / 2 ^ (Int.log 2 |q| - 52)) : ℚ) * 2 ^ (Int.log 2 |q| - 52)

/-- A `double`: a finite value, or `none` for an infinity or a NaN. -/
abbrev Double : Type := Option ℚ

/-- Conversion `(double)z` of an `int`, which is exact. -/
def double_of_int (z : Int) : Double := some (z : ℚ)

/-- Division of two `double` values; dividing by zero gives an infinity or a NaN. -/
def double_div (a b : Double) : Double :=
  match a, b with
  | some x, some y => if y = 0 then none else some (round_double (x / y))
  | _, _ => none

/-- Product of two `double` values. -/
def double_mul (a b : Double) : Double :=
  match a, b with
  | some x, some y => some (round_double (x * y))
  | _, _ => none

/-- Nearest integer to an exact value, halfway cases away from zero. -/
def round_half_away (q : ℚ) : Int :=
  if 0 ≤ q then ⌊q + 1 / 2⌋ else -⌊-q + 1 / 2⌋

/-- The C library's `lround`: nearest integer, halfway cases away from zero. -/
def lround (v : Double) : Int :=
  match v with
  | some q => round_half_away q
  | none => 0

/-- The loop `while (!keys_.empty()) { delete keys_.back(); keys_.pop_back(); }`. -/
def Impl.delete_keys_loop (keys : List Key_Button) : List Key_Button :=
  if ¬ keys.isEmpty then Impl.delete_keys_loop keys.dropLast else keys
termination_by keys.length
decreasing_by
  rename_i h
  cases keys with
  | nil => simp at h
  | cons a l => simp

/-- Destroys every key control: `Impl::delete_keys`. -/
def Impl.delete_keys (s : Impl) : Impl :=
  { s with keys_ := Impl.delete_keys_loop s.keys_ }

/-- Body of the first loop of `create_keys`: the control of a white key is built and stored
in slot `key`; the slot of a black key is left alone. -/
def Impl.create_keys_white (s : Impl) (wr : Double) (keys : List (Option Key_Button))
    (key : Nat) : List (Option Key_Button) :=
  let keyc := Impl.key_color key
  if keyc = Key_White then
    let keyx := s.x + lround (double_mul wr (double_of_int (Impl.key_position key)))
    let nextkey := Impl.next_white_key key
    let nextx := s.x + lround (double_mul wr (double_of_int
      (int32 (Impl.keypos_.getD (nextkey % 12) 0 +
        int32 (int32 (int32 ((nextkey / 12 : Nat) : Int) * 7) * Impl.keypos_.getD 2 0)))))
    let keyw := nextx - keyx
    let keyh := s.h
    let btn : Key_Button :=
      { x := keyx, y := s.y, w := keyw, h := keyh, key_ := key, value_ := false,
        color_ := s.bg_.1, selection_color_ := s.bg_.1, box_ := s.box_.1,
        visible_focus_ := false }
    keys.set key (some btn)
  else
    keys

/-- Body of the second loop of `create_keys`: the control of a black key is built and stored
in slot `key`; the slot of a white key is left alone. -/
def Impl.create_keys_black (s : Impl) (wr : Double) (keys : List (Option Key_Button))
    (key : Nat) : List (Option Key_Button) :=
  let keyc := Impl.key_color key
  if keyc = Key_Black then
    let keyx := s.x + lround (double_mul wr (double_of_int (Impl.key_position key)))
    let keyw := lround (double_mul wr (double_of_int black_keywidth))
    let keyh := Int.tdiv s.h 2
    let btn : Key_Button :=
      { x := keyx, y := s.y, w := keyw, h := keyh, key_ := key, value_ := false,
        color_ := s.bg_.2, selection_color_ := s.bg_.2, box_ := s.box_.2,
        visible_focus_ := false }
    keys.set key (some btn)
  else
    keys

/-- Rebuilds the key controls for `nkeys` keys: `Impl::create_keys`. The vector is resized
to `nkeys` null pointers, the two loops fill it, and the state keeps the controls the filled
vector points to. -/
def Impl.create_keys (s : Impl) (nkeys : Nat) : Impl :=
  let s := Impl.delete_keys s
  if nkeys = 0 then s
  else
    let fullw := int32 (Impl.key_position (nkeys - 1) + Impl.key_width (nkeys - 1))
    let wr : Double := double_div (double_of_int s.w) (double_of_int fullw)
    let keys : List (Option Key_Button) := List.replicate nkeys none
    let keys := (List.range nkeys).foldl (Impl.create_keys_white s wr) keys
    let keys := (List.range nkeys).foldl (Impl.create_keys_black s wr) keys
    { s with keys_ := keys.reduceOption }

/-! ## Widget operations -/

/-- Getter `Flw_Piano::key_color() const`: the palette `bg_`. -/
def key_color (s : Impl) : Nat × Nat := s.bg_

/-- Setter `Flw_Piano::key_color(wh, bl)`: stores the palette and recolours every key,
`keys[key]->color(bg, bg)` for `key` from 0 to `nkeys - 1`. -/
def key_color_set (s : Impl) (wh bl : Nat) : Impl :=
  let s := { s with bg_ := (wh, bl) }
  let nkeys := s.keys_.length
  let keys := (List.range nkeys).foldl (fun keys key =>
    let keyc := Impl.key_color key
    let bg := if keyc = Key_White then wh else bl
    keys.modify (fun btn => { btn with color_ := bg, selection_color_ := bg }) key) s.keys_
  { s with keys_ := keys }

/-- Getter `Flw_Piano::key_box() const`: the box styles `box_`. -/
def key_box (s : Impl) : Nat × Nat := s.box_

/-- Setter `Flw_Piano::key_box(wh, bl)`: stores the box styles and restyles every key. -/
def key_box_set (s : Impl) (wh bl : Nat) : Impl :=
  let s := { s with box_ := (wh, bl) }
  let nkeys := s.keys_.length
  let keys := (List.range nkeys).foldl (fun keys key =>
    let keyc := Impl.key_color key
    keys.modify (fun btn => { btn with box_ := if keyc = Key_White then wh else bl }) key)
    s.keys_
  { s with keys_ := keys }

/-- Getter `Flw_Piano::key_count() const`. -/
def key_count (s : Impl) : Nat := s.keys_.length

/-- Setter `Flw_Piano::key_count(nkeys)`. -/
def key_count_set (s : Impl) (nkeys : Nat) : Impl := Impl.create_keys s nkeys

/-- Getter `Flw_Piano::key_value(key) const`. -/
def key_value (s : Impl) (key : Nat) : Int :=
  let nkeys := s.keys_.length
  if key ≥ nkeys then 0
  else
    match s.keys_[key]? with
    | some btn => if btn.value_ then 1 else 0
    | none => 0

/-- Setter `Flw_Piano::key_value(key, value)`; the toolkit button keeps `value != 0`. -/
def key_value_set (s : Impl) (key : Nat) (value : Int) : Impl :=
  let nkeys := s.keys_.length
  if key ≥ nkeys then s
  else { s with keys_ := s.keys_.modify (fun btn => { btn with value_ := decide (value ≠ 0) }) key }

/-- Fires an event: `Impl::do_piano_callback`. The slot is written, then the host callback
runs and reads it. -/
def Impl.do_piano_callback (s : Impl) (type : Piano_Event) (key : Nat) : Impl :=
  let s := { s with event_type_ := type }
  let s := { s with event_key_ := key }
  { s with callbacks_ := s.callbacks_ ++ [(s.event_type_, s.event_key_)] }

/-- Presses a key: `Flw_Piano::press_key`; the state after the call and the result. -/
def press_key (s : Impl) (key : Nat) : Impl × Bool :=
  let nkeys := s.keys_.length
  if key ≥ nkeys then (s, false)
  else
    match s.keys_[key]? with
    | none => (s, false)
    | some btn =>
      if btn.value_ then (s, false)
      else
        let s := { s with keys_ := s.keys_.set key { btn with value_ := true } }
        let s := Impl.do_piano_callback s PIANO_PRESS key
        (s, true)

/-- Releases a key: `Flw_Piano::release_key`; the state after the call and the result. -/
def release_key (s : Impl) (key : Nat) : Impl × Bool :=
  let nkeys := s.keys_.length
  if key ≥ nkeys then (s, false)
  else
    match s.keys_[key]? with
    | none => (s, false)
    | some btn =>
      if ¬ btn.value_ then (s, false)
      else
        let s := { s with keys_ := s.keys_.set key { btn with value_ := false } }
        let s := Impl.do_piano_callback s PIANO_RELEASE key
        (s, true)

/-- The sequence of keys `Flw_Piano::draw` hands to `draw_child`: the white keys, then the
black keys. -/
def draw (s : Impl) : List Key_Button :=
  let nkeys := s.keys_.length
  let drawn := (List.range nkeys).foldl (fun drawn key =>
    let keyc := Impl.key_color key
    if keyc = Key_White then
      match s.keys_[key]? with
      | some btn => drawn ++ [btn]
      | none => drawn
    else drawn) []
  (List.range nkeys).foldl (fun drawn key =>
    let keyc := Impl.key_color key
    if keyc = Key_Black then
      match s.keys_[key]? with
      | some btn => drawn ++ [btn]
      | none => drawn
    else drawn) drawn

/-! ## Pointer input router -/

/-- The test `inside` of `key_at`: left and top edges count, right and bottom do not. -/
def Impl.inside (btn : Key_Button) (x y : Int) : Bool :=
  decide (x ≥ btn.x) && decide (x < btn.x + btn.w) &&
    decide (y ≥ btn.y) && decide (y < btn.y + btn.h)

/-- One of the two loops of `key_at`: the first key of colour `c`, in index order, whose
rectangle holds the point. -/
def Impl.key_at_loop (keys : List Key_Button) (c : Key_Color) (x y : Int) :
    Option Key_Button :=
  (List.range keys.length).findSome? (fun i =>
    if Impl.key_color i = c then
      match keys[i]? with
      | some btn => if Impl.inside btn x y then some btn else none
      | none => none
    else none)

/-- Hit test: `Impl::key_at`. The black keys are tried first, then the white keys; `none`
is the null pointer. -/
def Impl.key_at (s : Impl) (x y : Int) : Option Key_Button :=
  match Impl.key_at_loop s.keys_ Key_Black x y with
  | some btn => some btn
  | none =>
    match Impl.key_at_loop s.keys_ Key_White x y with
    | some btn => some btn
    | none => none

/-- Pointer events of a key control: `Impl::handle_key`, with the pointer position
`Fl::event_x()`, `Fl::event_y()` as arguments; the state after the call and the result. -/
def Impl.handle_key (s : Impl) (event : Int) (event_x event_y : Int) : Impl × Int :=
  if event = FL_PUSH ∨ event = FL_DRAG then
    let x := event_x
    let y := event_y
    match Impl.key_at s x y with
    | some btn =>
      let key := btn.piano_key
      let oldkey := s.pushed_key_
      if key ≠ oldkey then
        let s := (release_key s oldkey).1
        let s := (press_key s key).1
        ({ s with pushed_key_ := key }, 1)
      else (s, 1)
    | none => (s, 1)
  else if event = FL_RELEASE then
    let key := s.pushed_key_
    let s := (release_key s key).1
    ({ s with pushed_key_ := unsigned_minus_one }, 1)
  else (s, 0)

/-- A stream of pointer events, each an event number with the pointer position, handled
in order by `handle_key`. -/
def pointer_events (s : Impl) (events : List (Int × Int × Int)) : Impl :=
  events.foldl (fun s e => (Impl.handle_key s e.1 e.2.1 e.2.2).1) s

/-! ## Construction -/

/-- The toolkit's box type `FL_UP_BOX`. -/
def FL_UP_BOX : Nat := 2

/-- The toolkit's `fl_rgb_color(r, g, b)` for a colour that is not black. -/
def fl_rgb_color (r g b : Nat) : Nat := (r <<< 24) ||| (g <<< 16) ||| (b <<< 8)

/-- Constructor `Impl::Impl`, for a widget with the rectangle `x y w h`; the static
last-event slot starts zero-initialised. -/
def Impl.init (x y w h : Int) : Impl :=
  { x := x, y := y, w := w, h := h,
    box_ := (FL_UP_BOX, FL_UP_BOX),
    bg_ := (fl_rgb_color 0xee 0xee 0xec, fl_rgb_color 0x88 0x8a 0x85),
    keys_ := [],
    pushed_key_ := unsigned_minus_one,
    event_type_ := PIANO_PRESS,
    event_key_ := 0,
    callbacks_ := [] }

/-- Constructor `Flw_Piano::Flw_Piano(x, y, w, h)`: a keyboard of 48 keys. -/
def new (x y w h : Int) : Impl := key_count_set (Impl.init x y w h) 48

/-- Structural invariant of a widget state: the vector holds fewer than `2 ^ 32` controls
and the control in slot `i` carries piano key `i`, as `create_keys` builds them. -/
def Impl.wf (s : Impl) : Prop :=
  s.keys_.length < 2 ^ 32 ∧
    ∀ (i : Nat) (btn : Key_Button), s.keys_[i]? = some btn → btn.key_ = i

/-- The pointer invariant: the tracked pushed key is none or a key of the widget, and a key
is pressed exactly when it is the tracked pushed key. -/
def Impl.single_pressed (s : Impl) : Prop :=
  (s.pushed_key_ = unsigned_minus_one ∨ s.pushed_key_ < s.keys_.length) ∧
    ∀ (i : Nat) (b : Key_Button), s.keys_[i]? = some b →
      (b.value_ = true ↔ i = s.pushed_key_)

/-! ## Example states -/

/-- A keyboard of three keys (white, black, white) in a widget 48 wide and 20 high. -/
def piano3 : Impl := key_count_set (Impl.init 0 0 48 20) 3

/-- The host presses key 2 of `piano3`, then the pointer goes down on key 0. -/
def piano3_two_pressed : Impl :=
  (Impl.handle_key (press_key piano3 2).1 FL_PUSH 5 15).1

/-- The pointer goes down on key 0 of `piano3`, then the host releases key 0. -/
def piano3_host_released : Impl :=
  (release_key (Impl.handle_key piano3 FL_PUSH 5 15).1 0).1

/-! ## Auxiliary facts -/

/-- The control `create_keys` builds for key `key` at stretch ratio `wr`. -/
def Impl.create_keys_button (s : Impl) (wr : Double) (key : Nat) : Key_Button :=
  if Impl.key_color key = Key_White then
    { x := s.x + lround (double_mul wr (double_of_int (Impl.key_position key))),
      y := s.y,
      w := (s.x + lround (double_mul wr
          (double_of_int (Impl.key_position (Impl.next_white_key key))))) -
        (s.x + lround (double_mul wr (double_of_int (Impl.key_position key)))),
      h := s.h, key_ := key, value_ := false,
      color_ := s.bg_.1, selection_color_ := s.bg_.1, box_ := s.box_.1,
      visible_focus_ := false }
  else
    { x := s.x + lround (double_mul wr (double_of_int (Impl.key_position key))),
      y := s.y,
      w := lround (double_mul wr (double_of_int black_keywidth)),
      h := Int.tdiv s.h 2, key_ := key, value_ := false,
      color_ := s.bg_.2, selection_color_ := s.bg_.2, box_ := s.box_.2,
      visible_focus_ := false }

/-- The nominal full width `fullw` that `create_keys` computes for `nkeys` keys. -/
def Impl.create_keys_fullw (nkeys : Nat) : Int :=
  int32 (Impl.key_position (nkeys - 1) + Impl.key_width (nkeys - 1))

/-- The stretch ratio `wr` that `create_keys` uses for `nkeys` keys. -/
def Impl.create_keys_wr (s : Impl) (nkeys : Nat) : Double :=
  double_div (double_of_int s.w) (double_of_int (Impl.create_keys_fullw nkeys))

/-- The reference offset of a key as a whole number: the expression of `key_position`,
`keypos_[key % 12] + (key / 12) * 7 * keypos_[2]`, before it is reduced to a 32-bit `int`.
`key_position` is this value wherever it fits an `int`. -/
def key_offset (key : Nat) : Int :=
  Impl.keypos_.getD (key % 12) 0 + ((key / 12 : Nat) : Int) * 7 * Impl.keypos_.getD 2 0

theorem key_color_cases (key : Nat) :
    Impl.key_color key = Key_White ∨ Impl.key_color key = Key_Black := by
  cases h : Impl.key_color key
  · exact Or.inl rfl
  · exact Or.inr rfl

theorem delete_keys_loop_eq (keys : List Key_Button) : Impl.delete_keys_loop keys = [] := by
  generalize h : keys.length = n
  induction n generalizing keys with
  | zero =>
    have : keys = [] := List.length_eq_zero.mp h
    subst this
    rw [Impl.delete_keys_loop]; simp
  | succ n ih =>
    rw [Impl.delete_keys_loop]
    have hne : keys ≠ [] := by
      intro h0; subst h0; simp at h
    simp only [List.isEmpty_eq_true, hne, not_false_eq_true, if_true]
    apply ih
    simp [h]

/-- A loop that stores `g key` in slot `key` for the keys satisfying `p`, run over the
keys below `m`, has filled exactly those slots. -/
theorem foldl_set_getElem? {α : Type} (p : Nat → Prop) [DecidablePred p] (g : Nat → α)
    (l : List α) (m i : Nat) :
    ((List.range m).foldl (fun keys key => if p key then keys.set key (g key) else keys)
      l)[i]? = if i < m ∧ p i then (l[i]?).map (fun _ => g i) else l[i]? := by
  induction m with
  | zero => simp
  | succ m ih =>
    rw [List.range_succ, List.foldl_append]
    simp only [List.foldl_cons, List.foldl_nil]
    by_cases hp : p m
    · simp only [hp, if_true]
      rw [List.getElem?_set', ih]
      by_cases him : m = i
      · subst him
        simp only [hp, lt_self_iff_false, false_and, and_true, if_false, if_true,
          Nat.lt_succ_self, Option.map_eq_map]
        rfl
      · have : (i < m + 1 ∧ p i) ↔ (i < m ∧ p i) := by
          constructor
          · rintro ⟨h1, h2⟩; exact ⟨by omega, h2⟩
          · rintro ⟨h1, h2⟩; exact ⟨by omega, h2⟩
        simp only [this, him, if_false]
    · simp only [hp, if_false]
      rw [ih]
      have : (i < m + 1 ∧ p i) ↔ (i < m ∧ p i) := by
        constructor
        · rintro ⟨h1, h2⟩
          refine ⟨?_, h2⟩
          rcases Nat.lt_succ_iff_lt_or_eq.mp h1 with h | h
          · exact h
          · subst h; exact absurd h2 hp
        · rintro ⟨h1, h2⟩; exact ⟨by omega, h2⟩
      simp only [this]

theorem create_keys_white_eq (s : Impl) (wr : Double) :
    Impl.create_keys_white s wr = fun keys key =>
      if Impl.key_color key = Key_White then
        keys.set key (some (Impl.create_keys_button s wr key))
      else keys := by
  funext keys key
  by_cases h : Impl.key_color key = Key_White
  · simp [Impl.create_keys_white, Impl.create_keys_button, Impl.key_position, h]
  · simp [Impl.create_keys_white, h]

theorem create_keys_black_eq (s : Impl) (wr : Double) :
    Impl.create_keys_black s wr = fun keys key =>
      if Impl.key_color key = Key_Black then
        keys.set key (some (Impl.create_keys_button s wr key))
      else keys := by
  funext keys key
  by_cases h : Impl.key_color key = Key_Black
  · simp [Impl.create_keys_black, Impl.create_keys_button, h]
  · simp [Impl.create_keys_black, h]

/-- The key controls after `create_keys`: slot `key` holds the control built for `key`. -/
theorem create_keys_keys (s : Impl) (nkeys : Nat) :
    (Impl.create_keys s nkeys).keys_ =
      (List.range nkeys).map (Impl.create_keys_button s (Impl.create_keys_wr s nkeys)) := by
  by_cases h0 : nkeys = 0
  · subst h0
    simp [Impl.create_keys, Impl.delete_keys, delete_keys_loop_eq]
  · have hall : (List.range nkeys).foldl
          (Impl.create_keys_black (Impl.delete_keys s) (Impl.create_keys_wr s nkeys))
          ((List.range nkeys).foldl
            (Impl.create_keys_white (Impl.delete_keys s) (Impl.create_keys_wr s nkeys))
            (List.replicate nkeys none)) =
        (List.range nkeys).map
          (fun key => some (Impl.create_keys_button s (Impl.create_keys_wr s nkeys) key)) := by
      apply List.ext_getElem?
      intro i
      rw [create_keys_white_eq, create_keys_black_eq, foldl_set_getElem?, foldl_set_getElem?]
      by_cases hi : i < nkeys
      · rcases key_color_cases i with hc | hc
        · simp [hi, hc, List.getElem?_range, Impl.create_keys_button, Impl.delete_keys]
        · simp [hi, hc, List.getElem?_range, Impl.create_keys_button, Impl.delete_keys]
      · have hle : nkeys ≤ i := by omega
        simp [hi, List.getElem?_eq_none, hle]
    have hk : (Impl.create_keys s nkeys).keys_ = List.reduceOption ((List.range nkeys).foldl
          (Impl.create_keys_black (Impl.delete_keys s) (Impl.create_keys_wr s nkeys))
          ((List.range nkeys).foldl
            (Impl.create_keys_white (Impl.delete_keys s) (Impl.create_keys_wr s nkeys))
            (List.replicate nkeys none))) := by
      simp only [Impl.create_keys, h0, if_false]
      rfl
    rw [hk, hall]
    simp only [List.reduceOption, List.filterMap_map, Function.id_comp]
    exact congrFun (List.filterMap_eq_map _) _

/-- A search over the indices below `n` that stops at the first hit: what it returns is
the hit of the least index that has one. -/
theorem findSome?_range_some {β : Type} {f : Nat → Option β} {n : Nat} {c : β}
    (h : (List.range n).findSome? f = some c) :
    ∃ i, i < n ∧ f i = some c ∧ ∀ j, j < i → f j = none := by
  induction n with
  | zero => simp at h
  | succ n ih =>
    rw [List.range_succ, List.findSome?_append] at h
    cases hprev : (List.range n).findSome? f with
    | some d =>
      rw [hprev] at h
      simp only [Option.or_some] at h
      cases h
      obtain ⟨i, hi, hfi, hmin⟩ := ih hprev
      exact ⟨i, by omega, hfi, hmin⟩
    | none =>
      rw [hprev] at h
      simp only [Option.none_or, List.findSome?_cons, List.findSome?_nil] at h
      have hnone : ∀ j, j < n → f j = none := by
        intro j hj
        exact List.findSome?_eq_none_iff.mp hprev j (List.mem_range.mpr hj)
      cases hfn : f n with
      | none => rw [hfn] at h; cases h
      | some d =>
        rw [hfn] at h
        refine ⟨n, by omega, ?_, hnone⟩
        rw [hfn]; exact h

theorem findSome?_range_eq_some {β : Type} (f : Nat → Option β) (n : Nat) (b : β) :
    (List.range n).findSome? f = some b ↔
      ∃ i, i < n ∧ f i = some b ∧ ∀ j, j < i → f j = none := by
  constructor
  · exact findSome?_range_some
  · rintro ⟨k, hk, hfk, hkmin⟩
    cases hres : (List.range n).findSome? f with
    | none =>
      have := List.findSome?_eq_none_iff.mp hres k (List.mem_range.mpr hk)
      rw [this] at hfk; cases hfk
    | some c =>
      obtain ⟨i, hi, hfi, hmin⟩ := findSome?_range_some hres
      rcases Nat.lt_trichotomy i k with h | h | h
      · rw [hkmin i h] at hfi; cases hfi
      · subst h; rw [hfi] at hfk; exact hfk
      · rw [hmin k h] at hfk; cases hfk

theorem findSome?_range_eq_none {β : Type} (f : Nat → Option β) (n : Nat) :
    (List.range n).findSome? f = none ↔ ∀ i, i < n → f i = none := by
  rw [List.findSome?_eq_none_iff]
  constructor
  · intro h i hi; exact h i (List.mem_range.mpr hi)
  · intro h i hi; exact h i (List.mem_range.mp hi)

/-- What one loop of `key_at` tests at index `i`. -/
theorem key_at_test_eq_some (keys : List Key_Button) (c : Key_Color) (x y : Int) (i : Nat)
    (b : Key_Button) :
    (if Impl.key_color i = c then
      match keys[i]? with
      | some btn => if Impl.inside btn x y then some btn else none
      | none => none
    else none) = some b ↔
      keys[i]? = some b ∧ Impl.key_color i = c ∧ Impl.inside b x y = true := by
  by_cases hc : Impl.key_color i = c
  · cases hk : keys[i]? with
    | none => simp [hc]
    | some btn =>
      by_cases hin : Impl.inside btn x y = true
      · simp only [hc, if_true, hin, Option.some.injEq, true_and]
        constructor
        · intro h; subst h; exact ⟨rfl, hin⟩
        · intro h; exact h.1
      · simp only [hc, if_true, hin, Option.some.injEq, true_and]
        constructor
        · intro h; simp at h
        · rintro ⟨h1, h2⟩; subst h1; exact absurd h2 hin
  · simp [hc]

theorem key_at_test_eq_none (keys : List Key_Button) (c : Key_Color) (x y : Int) (i : Nat) :
    (if Impl.key_color i = c then
      match keys[i]? with
      | some btn => if Impl.inside btn x y then some btn else none
      | none => none
    else none) = none ↔
      ∀ b, keys[i]? = some b → Impl.key_color i = c → Impl.inside b x y = false := by
  by_cases hc : Impl.key_color i = c
  · cases hk : keys[i]? with
    | none => simp [hc]
    | some btn =>
      by_cases hin : Impl.inside btn x y = true
      · simp [hc, hin]
      · simp [hc, hin]
  · simp [hc]

/-- One loop of `key_at` returns the control of the least index of colour `c` whose
rectangle holds the point. -/
theorem key_at_loop_eq_some (keys : List Key_Button) (c : Key_Color) (x y : Int)
    (b : Key_Button) :
    Impl.key_at_loop keys c x y = some b ↔
      ∃ i, keys[i]? = some b ∧ Impl.key_color i = c ∧ Impl.inside b x y = true ∧
        ∀ j bj, j < i → keys[j]? = some bj → Impl.key_color j = c →
          Impl.inside bj x y = false := by
  unfold Impl.key_at_loop
  rw [findSome?_range_eq_some]
  constructor
  · rintro ⟨i, _, hfi, hmin⟩
    obtain ⟨h1, h2, h3⟩ := (key_at_test_eq_some keys c x y i b).mp hfi
    refine ⟨i, h1, h2, h3, ?_⟩
    intro j bj hj hkj hcj
    exact (key_at_test_eq_none keys c x y j).mp (hmin j hj) bj hkj hcj
  · rintro ⟨i, h1, h2, h3, hmin⟩
    have hi : i < keys.length := by
      by_contra hge
      rw [List.getElem?_eq_none (by omega)] at h1
      cases h1
    refine ⟨i, hi, (key_at_test_eq_some keys c x y i b).mpr ⟨h1, h2, h3⟩, ?_⟩
    intro j hj
    exact (key_at_test_eq_none keys c x y j).mpr (fun bj hkj hcj => hmin j bj hj hkj hcj)

theorem key_at_loop_eq_none (keys : List Key_Button) (c : Key_Color) (x y : Int) :
    Impl.key_at_loop keys c x y = none ↔
      ∀ i b, keys[i]? = some b → Impl.key_color i = c → Impl.inside b x y = false := by
  unfold Impl.key_at_loop
  rw [findSome?_range_eq_none]
  constructor
  · intro h i b hk hc
    have hi : i < keys.length := by
      by_contra hge
      rw [List.getElem?_eq_none (by omega)] at hk
      cases hk
    exact (key_at_test_eq_none keys c x y i).mp (h i hi) b hk hc
  · intro h i _
    exact (key_at_test_eq_none keys c x y i).mpr (h i)

theorem key_at_eq (s : Impl) (x y : Int) :
    Impl.key_at s x y =
      (Impl.key_at_loop s.keys_ Key_Black x y).or (Impl.key_at_loop s.keys_ Key_White x y) := by
  unfold Impl.key_at
  cases Impl.key_at_loop s.keys_ Key_Black x y with
  | some b => rfl
  | none =>
    cases Impl.key_at_loop s.keys_ Key_White x y with
    | some b => rfl
    | none => rfl

theorem create_keys_getElem? (s : Impl) (nkeys i : Nat) (hi : i < nkeys) :
    (Impl.create_keys s nkeys).keys_[i]? =
      some (Impl.create_keys_button s (Impl.create_keys_wr s nkeys) i) := by
  rw [create_keys_keys, List.getElem?_map, List.getElem?_range hi]
  rfl

/-- The loop of `next_white_key`, one step unfolded. -/
theorem next_white_key_loop_eq (nextkey : Nat) :
    Impl.next_white_key_loop nextkey =
      if Impl.key_color nextkey ≠ Key_White then
        Impl.next_white_key_loop ((nextkey + 1) % 2 ^ 32)
      else nextkey := by
  rw [Impl.next_white_key_loop]

theorem key_color_mod (key : Nat) : Impl.key_color key = Impl.key_color (key % 12) := by
  simp [Impl.key_color]

/-- No two black keys are adjacent. -/
theorem key_color_succ_white (key : Nat) (h : Impl.key_color key ≠ Key_White) :
    Impl.key_color (key + 1) = Key_White := by
  have h1 : ∀ m, m < 12 → Impl.key_color m ≠ Key_White →
      Impl.key_color (m + 1) = Key_White := by decide
  rw [key_color_mod] at h
  have h2 := h1 (key % 12) (Nat.mod_lt _ (by decide)) h
  rw [key_color_mod] at h2 ⊢
  have : (key + 1) % 12 = (key % 12 + 1) % 12 := by omega
  rw [this]; exact h2

/-- The loop of `next_white_key` stops at `key + 1` or at `key + 2`. -/
theorem next_white_key_eq (key : Nat) (hk : key + 2 < 2 ^ 32) :
    Impl.next_white_key key =
      if Impl.key_color (key + 1) = Key_White then key + 1 else key + 2 := by
  unfold Impl.next_white_key
  rw [Nat.mod_eq_of_lt (by omega), next_white_key_loop_eq]
  by_cases h : Impl.key_color (key + 1) = Key_White
  · simp [h]
  · have h2 := key_color_succ_white (key + 1) h
    simp only [ne_eq, h, not_false_eq_true, if_true, if_false]
    rw [Nat.mod_eq_of_lt (by omega), next_white_key_loop_eq]
    simp [h2]


/-! ## Layout: adjacent white keys tile -/

/-- C1: for every key count `N ≥ 1`, widget origin and width (any state `s`), and every
white key `i < N` whose next white key `j = next_white_key i` is also below `N`, the
rectangle `create_keys` gives key `i` ends (left edge + width) where the rectangle of key
`j` starts. -/
theorem C1_white_keys_contiguous (s : Impl) (N i : Nat) (_hN : 1 ≤ N) (hi : i < N)
    (hw : Impl.key_color i = Key_White) (hj : Impl.next_white_key i < N) :
    ∃ bi bj, (Impl.create_keys s N).keys_[i]? = some bi ∧
      (Impl.create_keys s N).keys_[Impl.next_white_key i]? = some bj ∧
      bi.x + bi.w = bj.x := by
  refine ⟨_, _, create_keys_getElem? s N i hi, create_keys_getElem? s N _ hj, ?_⟩
  have hxj : ∀ k, (Impl.create_keys_button s (Impl.create_keys_wr s N) k).x =
      s.x + lround (double_mul (Impl.create_keys_wr s N)
        (double_of_int (Impl.key_position k))) := by
    intro k
    unfold Impl.create_keys_button
    split <;> rfl
  rw [hxj (Impl.next_white_key i)]
  simp only [Impl.create_keys_button, hw, if_true]
  ring

theorem C1_white_keys_contiguous_witness :
    (1 ≤ 3 ∧ 0 < 3 ∧ Impl.key_color 0 = Key_White ∧ Impl.next_white_key 0 < 3) ∧
    ∃ bi bj, (Impl.create_keys (Impl.init 0 0 48 20) 3).keys_[0]? = some bi ∧
      (Impl.create_keys (Impl.init 0 0 48 20) 3).keys_[Impl.next_white_key 0]? = some bj ∧
      bi.x + bi.w = bj.x :=
  have h : Impl.next_white_key 0 < 3 := by
    simp [Impl.next_white_key, next_white_key_loop_eq, Impl.key_color]
  ⟨⟨by decide, by decide, by decide, h⟩,
    C1_white_keys_contiguous (Impl.init 0 0 48 20) 3 0 (by decide) (by decide) (by decide) h⟩

/-! ## Hit test -/

/-- C2: for every list of key rectangles and every point, `key_at` returns the
lowest-indexed black key whose rectangle holds the point whenever some black key holds it
(also when a white key holds it too); otherwise the lowest-indexed white key whose rectangle
holds the point; and none exactly when no key's rectangle holds the point. A rectangle
holds a point when the point is at or after its left and top edges and before its right and
bottom edges. -/
theorem C2_key_at_black_first (s : Impl) (x y : Int) :
    (∀ b, Impl.inside b x y = true ↔
      (b.x ≤ x ∧ x < b.x + b.w ∧ b.y ≤ y ∧ y < b.y + b.h)) ∧
    (∀ (i : Nat) (b : Key_Button), s.keys_[i]? = some b → Impl.key_color i = Key_Black →
      Impl.inside b x y = true →
      (∀ (j : Nat) (bj : Key_Button), j < i → s.keys_[j]? = some bj → Impl.key_color j = Key_Black →
        Impl.inside bj x y = false) →
      Impl.key_at s x y = some b) ∧
    (∀ (i : Nat) (b : Key_Button), s.keys_[i]? = some b → Impl.key_color i = Key_White →
      Impl.inside b x y = true →
      (∀ (j : Nat) (bj : Key_Button), s.keys_[j]? = some bj → Impl.key_color j = Key_Black →
        Impl.inside bj x y = false) →
      (∀ (j : Nat) (bj : Key_Button), j < i → s.keys_[j]? = some bj → Impl.key_color j = Key_White →
        Impl.inside bj x y = false) →
      Impl.key_at s x y = some b) ∧
    (Impl.key_at s x y = none ↔
      ∀ (i : Nat) (b : Key_Button), s.keys_[i]? = some b → Impl.inside b x y = false) := by
  refine ⟨?_, ?_, ?_, ?_⟩
  · intro b
    simp only [Impl.inside, Bool.and_eq_true, decide_eq_true_eq, ge_iff_le]
    tauto
  · intro i b hk hc hin hmin
    rw [key_at_eq, (key_at_loop_eq_some s.keys_ Key_Black x y b).mpr ⟨i, hk, hc, hin, hmin⟩]
    rfl
  · intro i b hk hc hin hblack hmin
    rw [key_at_eq, (key_at_loop_eq_none s.keys_ Key_Black x y).mpr hblack,
      (key_at_loop_eq_some s.keys_ Key_White x y b).mpr ⟨i, hk, hc, hin, hmin⟩]
    rfl
  · rw [key_at_eq]
    constructor
    · intro h i b hk
      have hb : Impl.key_at_loop s.keys_ Key_Black x y = none := by
        cases hb : Impl.key_at_loop s.keys_ Key_Black x y with
        | none => rfl
        | some c => rw [hb] at h; cases h
      rw [hb] at h
      simp only [Option.none_or] at h
      rcases key_color_cases i with hc | hc
      · exact (key_at_loop_eq_none s.keys_ Key_White x y).mp h i b hk hc
      · exact (key_at_loop_eq_none s.keys_ Key_Black x y).mp hb i b hk hc
    · intro h
      rw [(key_at_loop_eq_none s.keys_ Key_Black x y).mpr (fun i b hk _ => h i b hk),
        (key_at_loop_eq_none s.keys_ Key_White x y).mpr (fun i b hk _ => h i b hk)]
      rfl

/-! ## Press/release state machine -/

theorem key_value_eq_one (s : Impl) (k : Nat) :
    key_value s k = 1 ↔ ∃ b, s.keys_[k]? = some b ∧ b.value_ = true := by
  unfold key_value
  by_cases hk : k ≥ s.keys_.length
  · simp [hk, List.getElem?_eq_none hk]
  · have hlt : k < s.keys_.length := by omega
    simp only [hk, if_false, List.getElem?_eq_getElem hlt]
    cases hv : (s.keys_[k]).value_ <;> simp [hv]

theorem key_value_eq_zero_of_lt (s : Impl) (k : Nat) (hlt : k < s.keys_.length) :
    key_value s k = 0 ↔ ∃ b, s.keys_[k]? = some b ∧ b.value_ = false := by
  unfold key_value
  have hk : ¬ k ≥ s.keys_.length := by omega
  simp only [hk, if_false, List.getElem?_eq_getElem hlt]
  cases hv : (s.keys_[k]).value_ <;> simp [hv]

/-- A released key in range is pressed by `press_key`, which fires one event. -/
theorem press_key_released (s : Impl) (k : Nat) (b : Key_Button)
    (hk : s.keys_[k]? = some b) (hv : b.value_ = false) :
    press_key s k =
      ({ s with keys_ := s.keys_.set k { b with value_ := true },
                event_type_ := PIANO_PRESS, event_key_ := k,
                callbacks_ := s.callbacks_ ++ [(PIANO_PRESS, k)] }, true) := by
  have hlt : k < s.keys_.length := by
    by_contra hge
    rw [List.getElem?_eq_none (by omega)] at hk
    cases hk
  have hge : ¬ k ≥ s.keys_.length := by omega
  simp [press_key, hge, hk, hv, Impl.do_piano_callback]

/-- A key out of range or already pressed makes `press_key` do nothing. -/
theorem press_key_noop (s : Impl) (k : Nat)
    (h : ∀ b, s.keys_[k]? = some b → b.value_ = true) : press_key s k = (s, false) := by
  unfold press_key
  by_cases hge : k ≥ s.keys_.length
  · simp [hge]
  · simp only [hge, if_false]
    cases hk : s.keys_[k]? with
    | none => rfl
    | some b => simp [h b hk]

/-- A pressed key in range is released by `release_key`, which fires one event. -/
theorem release_key_pressed (s : Impl) (k : Nat) (b : Key_Button)
    (hk : s.keys_[k]? = some b) (hv : b.value_ = true) :
    release_key s k =
      ({ s with keys_ := s.keys_.set k { b with value_ := false },
                event_type_ := PIANO_RELEASE, event_key_ := k,
                callbacks_ := s.callbacks_ ++ [(PIANO_RELEASE, k)] }, true) := by
  have hlt : k < s.keys_.length := by
    by_contra hge
    rw [List.getElem?_eq_none (by omega)] at hk
    cases hk
  have hge : ¬ k ≥ s.keys_.length := by omega
  simp [release_key, hge, hk, hv, Impl.do_piano_callback]

/-- A key out of range or already released makes `release_key` do nothing. -/
theorem release_key_noop (s : Impl) (k : Nat)
    (h : ∀ b, s.keys_[k]? = some b → b.value_ = false) : release_key s k = (s, false) := by
  unfold release_key
  by_cases hge : k ≥ s.keys_.length
  · simp [hge]
  · simp only [hge, if_false]
    cases hk : s.keys_[k]? with
    | none => rfl
    | some b => simp [h b hk]

theorem press_key_length (s : Impl) (k : Nat) :
    (press_key s k).1.keys_.length = s.keys_.length := by
  by_cases hfire : ∃ b, s.keys_[k]? = some b ∧ b.value_ = false
  · obtain ⟨b, hk, hv⟩ := hfire
    rw [press_key_released s k b hk hv]
    simp
  · rw [press_key_noop s k]
    intro b hk
    cases hv : b.value_
    · exact absurd ⟨b, hk, hv⟩ hfire
    · rfl

/-- After `press_key k`, whatever it returned, key `k` is pressed when it is a key. -/
theorem press_key_value_after (s : Impl) (k : Nat) :
    ∀ b2, (press_key s k).1.keys_[k]? = some b2 → b2.value_ = true := by
  by_cases hfire : ∃ b, s.keys_[k]? = some b ∧ b.value_ = false
  · obtain ⟨b, hk, hv⟩ := hfire
    have hlt : k < s.keys_.length := by
      by_contra hge
      rw [List.getElem?_eq_none (by omega)] at hk
      cases hk
    rw [press_key_released s k b hk hv]
    intro b2 hb2
    simp only [List.getElem?_set_self hlt, Option.some.injEq] at hb2
    rw [← hb2]
  · have hno : ∀ b, s.keys_[k]? = some b → b.value_ = true := by
      intro b hk
      cases hv : b.value_
      · exact absurd ⟨b, hk, hv⟩ hfire
      · rfl
    rw [press_key_noop s k hno]
    exact hno

/-- C3: for every widget state and key index `k`, `press_key k` returns true exactly when
`k < key_count` and key `k` is released; when it returns true, key `k` becomes pressed (only
its value changes), every other key, the key count and the tracked pushed key are unchanged,
and exactly one event is fired, the last-event slot holding `(PRESS, k)` when the callback
runs; when it returns false the state is unchanged, so no event is fired. A second
`press_key k` right after the first returns false, leaves the state as the first call left
it (no second event), and key `k`, when in range, is pressed. -/
theorem C3_press_key (s : Impl) (k : Nat) :
    ((press_key s k).2 = true ↔ (k < key_count s ∧ key_value s k = 0)) ∧
    ((press_key s k).2 = true →
      key_value (press_key s k).1 k = 1 ∧
      (∀ b, s.keys_[k]? = some b →
        (press_key s k).1.keys_[k]? = some { b with value_ := true }) ∧
      (∀ j, j ≠ k → (press_key s k).1.keys_[j]? = s.keys_[j]?) ∧
      key_count (press_key s k).1 = key_count s ∧
      (press_key s k).1.pushed_key_ = s.pushed_key_ ∧
      (press_key s k).1.callbacks_ = s.callbacks_ ++ [(PIANO_PRESS, k)] ∧
      (press_key s k).1.event_type_ = PIANO_PRESS ∧ (press_key s k).1.event_key_ = k) ∧
    ((press_key s k).2 = false → (press_key s k).1 = s) ∧
    ((press_key (press_key s k).1 k).2 = false ∧
      (press_key (press_key s k).1 k).1 = (press_key s k).1 ∧
      (k < key_count s → key_value (press_key (press_key s k).1 k).1 k = 1)) := by
  have h4 : ∀ r, r = press_key s k → (press_key r.1 k).2 = false ∧
      (press_key r.1 k).1 = r.1 ∧
      (k < key_count s → key_value (press_key r.1 k).1 k = 1) := by
    intro r hr
    subst hr
    have h2 := press_key_value_after s k
    rw [press_key_noop _ k h2]
    refine ⟨rfl, rfl, ?_⟩
    intro hlt
    rw [key_value_eq_one]
    have hlt2 : k < (press_key s k).1.keys_.length := by
      rw [press_key_length]; exact hlt
    exact ⟨_, List.getElem?_eq_getElem hlt2, h2 _ (List.getElem?_eq_getElem hlt2)⟩
  by_cases hfire : ∃ b, s.keys_[k]? = some b ∧ b.value_ = false
  · obtain ⟨b, hk, hv⟩ := hfire
    have hlt : k < s.keys_.length := by
      by_contra hge
      rw [List.getElem?_eq_none (by omega)] at hk
      cases hk
    have hval : key_value s k = 0 := (key_value_eq_zero_of_lt s k hlt).mpr ⟨b, hk, hv⟩
    rw [press_key_released s k b hk hv]
    refine ⟨?_, ?_, ?_, ?_⟩
    · simp [key_count, hlt, hval]
    · intro _
      refine ⟨?_, ?_, ?_, ?_, rfl, rfl, rfl, rfl⟩
      · rw [key_value_eq_one]
        exact ⟨{ b with value_ := true }, by simp [List.getElem?_set_self hlt], rfl⟩
      · intro b2 hb2
        rw [hk] at hb2; cases hb2
        simp [List.getElem?_set_self hlt]
      · intro j hj
        simp [List.getElem?_set_ne (Ne.symm hj)]
      · simp [key_count]
    · intro h; cases h
    · exact h4 _ (press_key_released s k b hk hv).symm
  · have hno : ∀ b, s.keys_[k]? = some b → b.value_ = true := by
      intro b hk
      cases hv : b.value_
      · exact absurd ⟨b, hk, hv⟩ hfire
      · rfl
    rw [press_key_noop s k hno]
    refine ⟨?_, ?_, ?_, ?_⟩
    · simp only [Bool.false_eq_true, false_iff, not_and, key_count]
      intro hlt hval
      obtain ⟨b, hk, hv⟩ := (key_value_eq_zero_of_lt s k hlt).mp hval
      exact hfire ⟨b, hk, hv⟩
    · intro h; cases h
    · intro _; rfl
    · exact h4 _ (press_key_noop s k hno).symm

/-- C4: for every widget state and key index `k`, `release_key k` returns true exactly when
`k < key_count` and key `k` is pressed; when it returns true, key `k` becomes released (only
its value changes), every other key, the key count and the tracked pushed key are unchanged,
and exactly one event is fired, the last-event slot holding `(RELEASE, k)` when the callback
runs; when it returns false, as it does for every `k ≥ key_count`, the state is unchanged, so
no event is fired. -/
theorem C4_release_key (s : Impl) (k : Nat) :
    ((release_key s k).2 = true ↔ (k < key_count s ∧ key_value s k = 1)) ∧
    ((release_key s k).2 = true →
      key_value (release_key s k).1 k = 0 ∧
      (∀ b, s.keys_[k]? = some b →
        (release_key s k).1.keys_[k]? = some { b with value_ := false }) ∧
      (∀ j, j ≠ k → (release_key s k).1.keys_[j]? = s.keys_[j]?) ∧
      key_count (release_key s k).1 = key_count s ∧
      (release_key s k).1.pushed_key_ = s.pushed_key_ ∧
      (release_key s k).1.callbacks_ = s.callbacks_ ++ [(PIANO_RELEASE, k)] ∧
      (release_key s k).1.event_type_ = PIANO_RELEASE ∧ (release_key s k).1.event_key_ = k) ∧
    ((release_key s k).2 = false → (release_key s k).1 = s) ∧
    (k ≥ key_count s → (release_key s k).2 = false) := by
  by_cases hfire : ∃ b, s.keys_[k]? = some b ∧ b.value_ = true
  · obtain ⟨b, hk, hv⟩ := hfire
    have hlt : k < s.keys_.length := by
      by_contra hge
      rw [List.getElem?_eq_none (by omega)] at hk
      cases hk
    have hval : key_value s k = 1 := (key_value_eq_one s k).mpr ⟨b, hk, hv⟩
    rw [release_key_pressed s k b hk hv]
    refine ⟨?_, ?_, ?_, ?_⟩
    · simp [key_count, hlt, hval]
    · intro _
      refine ⟨?_, ?_, ?_, ?_, rfl, rfl, rfl, rfl⟩
      · have hlt2 : k < (s.keys_.set k { b with value_ := false }).length := by simpa using hlt
        rw [key_value_eq_zero_of_lt _ k hlt2]
        exact ⟨{ b with value_ := false }, by simp [List.getElem?_set_self hlt], rfl⟩
      · intro b2 hb2
        rw [hk] at hb2; cases hb2
        simp [List.getElem?_set_self hlt]
      · intro j hj
        simp [List.getElem?_set_ne (Ne.symm hj)]
      · simp [key_count]
    · intro h; cases h
    · intro hge
      simp only [key_count] at hge
      omega
  · have hno : ∀ b, s.keys_[k]? = some b → b.value_ = false := by
      intro b hk
      cases hv : b.value_
      · rfl
      · exact absurd ⟨b, hk, hv⟩ hfire
    rw [release_key_noop s k hno]
    refine ⟨?_, ?_, ?_, ?_⟩
    · simp only [Bool.false_eq_true, false_iff, not_and, key_count]
      intro hlt hval
      obtain ⟨b, hk, hv⟩ := (key_value_eq_one s k).mp hval
      exact hfire ⟨b, hk, hv⟩
    · intro h; cases h
    · intro _; rfl
    · intro _; rfl

/-! ## Pointer input router -/

theorem getElem?_lt_length {α : Type} {l : List α} {i : Nat} {a : α} (h : l[i]? = some a) :
    i < l.length := by
  by_contra hge
  rw [List.getElem?_eq_none (by omega)] at h
  cases h

/-- What `key_at` returns is a control of the vector, in its own slot when the state is
well formed. -/
theorem key_at_some_wf (s : Impl) (hwf : s.wf) (x y : Int) (b : Key_Button)
    (h : Impl.key_at s x y = some b) : s.keys_[b.piano_key]? = some b := by
  rw [key_at_eq] at h
  have hex : ∃ i : Nat, s.keys_[i]? = some b := by
    cases hb : Impl.key_at_loop s.keys_ Key_Black x y with
    | some c =>
      rw [hb] at h
      simp only [Option.or_some] at h
      cases h
      obtain ⟨i, hi, _⟩ := (key_at_loop_eq_some s.keys_ Key_Black x y b).mp hb
      exact ⟨i, hi⟩
    | none =>
      rw [hb] at h
      simp only [Option.none_or] at h
      obtain ⟨i, hi, _⟩ := (key_at_loop_eq_some s.keys_ Key_White x y b).mp h
      exact ⟨i, hi⟩
  obtain ⟨i, hi⟩ := hex
  have := hwf.2 i b hi
  unfold Key_Button.piano_key
  rw [this]; exact hi

/-- The key `(unsigned)-1` is out of range in a well-formed state. -/
theorem release_key_unsigned_minus_one (s : Impl) (hlen : s.keys_.length < 2 ^ 32) :
    release_key s unsigned_minus_one = (s, false) := by
  apply release_key_noop
  intro b hb
  have := getElem?_lt_length hb
  unfold unsigned_minus_one at this
  omega

/-- A pointer-down or pointer-drag that hits a key other than the tracked one releases the
tracked key, presses the hit key and tracks it. -/
theorem handle_key_move (s : Impl) (event : Int) (h : event = FL_PUSH ∨ event = FL_DRAG)
    (x y : Int) (b : Key_Button) (hb : Impl.key_at s x y = some b)
    (hne : b.piano_key ≠ s.pushed_key_) :
    Impl.handle_key s event x y =
      ({ (press_key (release_key s s.pushed_key_).1 b.piano_key).1 with
          pushed_key_ := b.piano_key }, 1) := by
  unfold Impl.handle_key
  simp only [h, if_true, hb, ne_eq, hne, not_false_eq_true]

theorem handle_key_release (s : Impl) (x y : Int) :
    Impl.handle_key s FL_RELEASE x y =
      ({ (release_key s s.pushed_key_).1 with pushed_key_ := unsigned_minus_one }, 1) := by
  unfold Impl.handle_key
  have h : ¬ (FL_RELEASE = FL_PUSH ∨ FL_RELEASE = FL_DRAG) := by decide
  simp only [h, if_false, if_true]

theorem key_value_eq_zero (s : Impl) (k : Nat)
    (h : ∀ b, s.keys_[k]? = some b → b.value_ = false) : key_value s k = 0 := by
  unfold key_value
  by_cases hk : k ≥ s.keys_.length
  · simp [hk]
  · have hlt : k < s.keys_.length := by omega
    simp only [hk, if_false, List.getElem?_eq_getElem hlt]
    simp [h _ (List.getElem?_eq_getElem hlt)]

/-- C5: in a state with no tracked pushed key and every key released, a pointer-down at a
point inside the rectangle of a black key `bi` (the lowest-indexed black key that holds the
point) fires exactly one event, `PRESS(bi)`, leaves `bi` pressed and recorded as the tracked
pushed key, and leaves every white key released, also a white key whose rectangle holds the
point. -/
theorem C5_pointer_down_black_key (s : Impl) (x y : Int) (bi : Nat) (b : Key_Button)
    (hwf : s.wf) (hnone : s.pushed_key_ = unsigned_minus_one)
    (hrel : ∀ (i : Nat) (k : Key_Button), s.keys_[i]? = some k → k.value_ = false)
    (hb : s.keys_[bi]? = some b) (hc : Impl.key_color bi = Key_Black)
    (hin : Impl.inside b x y = true)
    (hmin : ∀ (j : Nat) (bj : Key_Button), j < bi → s.keys_[j]? = some bj →
      Impl.key_color j = Key_Black → Impl.inside bj x y = false) :
    (Impl.handle_key s FL_PUSH x y).1.callbacks_ = s.callbacks_ ++ [(PIANO_PRESS, bi)] ∧
    key_value (Impl.handle_key s FL_PUSH x y).1 bi = 1 ∧
    (Impl.handle_key s FL_PUSH x y).1.pushed_key_ = bi ∧
    (∀ j, Impl.key_color j = Key_White →
      key_value (Impl.handle_key s FL_PUSH x y).1 j = 0) ∧
    (Impl.handle_key s FL_PUSH x y).2 = 1 := by
  have hkat : Impl.key_at s x y = some b := by
    rw [key_at_eq, (key_at_loop_eq_some s.keys_ Key_Black x y b).mpr ⟨bi, hb, hc, hin, hmin⟩]
    rfl
  have hkey : b.piano_key = bi := hwf.2 bi b hb
  have hlt : bi < s.keys_.length := getElem?_lt_length hb
  have hne : b.piano_key ≠ s.pushed_key_ := by
    rw [hkey, hnone]
    have := hwf.1
    unfold unsigned_minus_one
    omega
  rw [handle_key_move s FL_PUSH (Or.inl rfl) x y b hkat hne, hnone,
    release_key_unsigned_minus_one s hwf.1, hkey, press_key_released s bi b hb (hrel bi b hb)]
  refine ⟨rfl, ?_, rfl, ?_, rfl⟩
  · rw [key_value_eq_one]
    exact ⟨{ b with value_ := true }, by simp [List.getElem?_set_self hlt], rfl⟩
  · intro j hj
    apply key_value_eq_zero
    intro k hk
    have hjb : bi ≠ j := by
      intro h; subst h; rw [hc] at hj; cases hj
    simp only [List.getElem?_set_ne hjb] at hk
    exact hrel j k hk

/-! ## The structural invariant -/

theorem wf_create_keys (s : Impl) (nkeys : Nat) (hn : nkeys < 2 ^ 32) :
    (Impl.create_keys s nkeys).wf := by
  constructor
  · rw [create_keys_keys]; simpa using hn
  · intro i btn hi
    have hlt : i < nkeys := by
      have := getElem?_lt_length hi
      rw [create_keys_keys] at this
      simpa using this
    rw [create_keys_getElem? s nkeys i hlt] at hi
    cases hi
    unfold Impl.create_keys_button
    split <;> rfl

theorem wf_set_value (s s1 : Impl) (hwf : s.wf) (k : Nat) (b : Key_Button) (v : Bool)
    (hk : s.keys_[k]? = some b) (hkeys : s1.keys_ = s.keys_.set k { b with value_ := v }) :
    s1.wf := by
  constructor
  · rw [hkeys]; simpa using hwf.1
  · intro i btn hi
    rw [hkeys] at hi
    by_cases hik : k = i
    · subst hik
      rw [List.getElem?_set_self (getElem?_lt_length hk)] at hi
      cases hi
      exact hwf.2 k b hk
    · rw [List.getElem?_set_ne hik] at hi
      exact hwf.2 i btn hi

theorem wf_press_key (s : Impl) (hwf : s.wf) (k : Nat) : (press_key s k).1.wf := by
  by_cases hfire : ∃ b, s.keys_[k]? = some b ∧ b.value_ = false
  · obtain ⟨b, hk, hv⟩ := hfire
    rw [press_key_released s k b hk hv]
    exact wf_set_value s _ hwf k b true hk rfl
  · rw [press_key_noop s k]
    · exact hwf
    · intro b hk
      cases hv : b.value_
      · exact absurd ⟨b, hk, hv⟩ hfire
      · rfl

theorem wf_release_key (s : Impl) (hwf : s.wf) (k : Nat) : (release_key s k).1.wf := by
  by_cases hfire : ∃ b, s.keys_[k]? = some b ∧ b.value_ = true
  · obtain ⟨b, hk, hv⟩ := hfire
    rw [release_key_pressed s k b hk hv]
    exact wf_set_value s _ hwf k b false hk rfl
  · rw [release_key_noop s k]
    · exact hwf
    · intro b hk
      cases hv : b.value_
      · rfl
      · exact absurd ⟨b, hk, hv⟩ hfire

theorem handle_key_miss (s : Impl) (event : Int) (h : event = FL_PUSH ∨ event = FL_DRAG)
    (x y : Int) (hb : Impl.key_at s x y = none) : Impl.handle_key s event x y = (s, 1) := by
  unfold Impl.handle_key
  simp only [h, if_true, hb]

theorem handle_key_same (s : Impl) (event : Int) (h : event = FL_PUSH ∨ event = FL_DRAG)
    (x y : Int) (b : Key_Button) (hb : Impl.key_at s x y = some b)
    (heq : b.piano_key = s.pushed_key_) : Impl.handle_key s event x y = (s, 1) := by
  unfold Impl.handle_key
  simp only [h, if_true, hb, ne_eq, heq, not_true_eq_false, if_false]

theorem handle_key_other (s : Impl) (event : Int) (h : ¬ (event = FL_PUSH ∨ event = FL_DRAG))
    (h2 : event ≠ FL_RELEASE) (x y : Int) : Impl.handle_key s event x y = (s, 0) := by
  unfold Impl.handle_key
  simp only [h, if_false, h2]

theorem wf_handle_key (s : Impl) (hwf : s.wf) (event x y : Int) :
    (Impl.handle_key s event x y).1.wf := by
  by_cases h : event = FL_PUSH ∨ event = FL_DRAG
  · cases hb : Impl.key_at s x y with
    | none => rw [handle_key_miss s event h x y hb]; exact hwf
    | some b =>
      by_cases heq : b.piano_key = s.pushed_key_
      · rw [handle_key_same s event h x y b hb heq]; exact hwf
      · rw [handle_key_move s event h x y b hb heq]
        exact wf_press_key _ (wf_release_key s hwf _) _
  · by_cases h2 : event = FL_RELEASE
    · subst h2
      rw [handle_key_release]
      exact wf_release_key s hwf _
    · rw [handle_key_other s event h h2]; exact hwf


/-! ## 32-bit integers -/

theorem int32_of_range (z : Int) (h1 : -(2 ^ 31) ≤ z) (h2 : z < 2 ^ 31) : int32 z = z := by
  unfold int32
  omega

theorem int32_range (z : Int) : -(2 ^ 31) ≤ int32 z ∧ int32 z < 2 ^ 31 := by
  unfold int32
  omega

theorem int32_add_int32 (a b : Int) : int32 (a + int32 b) = int32 (a + b) := by
  unfold int32
  omega

theorem int32_int32_sub (a b : Int) : int32 (a + int32 (b - a)) = int32 b := by
  unfold int32
  omega

/-! ## Rounding -/

theorem round_half_even_sub_le (m : ℚ) : |(round_half_even m : ℚ) - m| ≤ 1 / 2 := by
  have h1 : (⌊m⌋ : ℚ) ≤ m := Int.floor_le m
  have h2 : m < (⌊m⌋ : ℚ) + 1 := Int.lt_floor_add_one m
  unfold round_half_even
  rw [abs_le]
  split_ifs with ha hb hc
  · constructor <;> linarith
  · push_cast; constructor <;> linarith
  · have : m - ⌊m⌋ = 1 / 2 := le_antisymm (not_lt.mp hb) (not_lt.mp ha)
    constructor <;> linarith
  · have : m - ⌊m⌋ = 1 / 2 := le_antisymm (not_lt.mp hb) (not_lt.mp ha)
    push_cast; constructor <;> linarith

theorem round_half_even_intCast (n : Int) : round_half_even (n : ℚ) = n := by
  unfold round_half_even
  simp

/-- The exponent of a positive value. -/
theorem log_two_eq (r : ℚ) (e : Int) (hr : 0 < r) (h1 : (2 : ℚ) ^ e ≤ r)
    (h2 : r < (2 : ℚ) ^ (e + 1)) : Int.log 2 r = e := by
  have hb : 1 < 2 := by decide
  have h1' : ((2 : ℕ) : ℚ) ^ e ≤ r := by simpa using h1
  have h2' : r < ((2 : ℕ) : ℚ) ^ (e + 1) := by simpa using h2
  have ha := (Int.zpow_le_iff_le_log hb hr).mp h1'
  have hb' := (Int.lt_zpow_iff_log_lt hb hr).mp h2'
  omega

/-- Rounding to binary64 at a known exponent. -/
theorem round_double_eq (q : ℚ) (e : Int) (hq : q ≠ 0) (h1 : (2 : ℚ) ^ e ≤ |q|)
    (h2 : |q| < (2 : ℚ) ^ (e + 1)) :
    round_double q = (round_half_even (q / 2 ^ (e - 52)) : ℚ) * 2 ^ (e - 52) := by
  unfold round_double
  rw [if_neg hq, log_two_eq |q| e (abs_pos.mpr hq) h1 h2]

/-- Rounding to binary64 changes a value by at most the fraction `2 ^ -53` of it. -/
theorem round_double_sub_le (q : ℚ) : |round_double q - q| ≤ |q| / 2 ^ 53 := by
  by_cases hq : q = 0
  · subst hq
    simp [round_double]
  · have hpos : 0 < |q| := abs_pos.mpr hq
    have hb : 1 < 2 := by decide
    have hlog : ((2 : ℕ) : ℚ) ^ Int.log 2 |q| ≤ |q| := Int.zpow_log_le_self hb hpos
    have hlog' : (2 : ℚ) ^ Int.log 2 |q| ≤ |q| := by simpa using hlog
    unfold round_double
    rw [if_neg hq]
    generalize Int.log 2 |q| = e at hlog'
    have hs : (0 : ℚ) < 2 ^ (e - 52) := by positivity
    have hr := round_half_even_sub_le (q / 2 ^ (e - 52))
    have heq : (round_half_even (q / 2 ^ (e - 52)) : ℚ) * 2 ^ (e - 52) - q =
        ((round_half_even (q / 2 ^ (e - 52)) : ℚ) - q / 2 ^ (e - 52)) * 2 ^ (e - 52) := by
      field_simp
    rw [heq, abs_mul, abs_of_pos hs]
    have hstep : (2 : ℚ) ^ (e - 52) = 2 ^ e / 2 ^ 52 := by
      rw [zpow_sub₀ (by norm_num : (2 : ℚ) ≠ 0)]
      norm_num
    calc |(round_half_even (q / 2 ^ (e - 52)) : ℚ) - q / 2 ^ (e - 52)| * 2 ^ (e - 52)
        ≤ 1 / 2 * 2 ^ (e - 52) := by
          apply mul_le_mul_of_nonneg_right hr (le_of_lt hs)
      _ = 2 ^ e / 2 ^ 53 := by rw [hstep]; ring
      _ ≤ |q| / 2 ^ 53 := by
          apply div_le_div_of_nonneg_right hlog'
          positivity

/-- A value less than a half away from a whole number rounds to it. -/
theorem round_half_away_eq (v : ℚ) (z : Int) (h : |v - z| < 1 / 2) : round_half_away v = z := by
  rw [abs_lt] at h
  unfold round_half_away
  split_ifs with h0
  · rw [Int.floor_eq_iff]
    constructor <;> linarith
  · have : ⌊-v + 1 / 2⌋ = -z := by
      rw [Int.floor_eq_iff]
      push_cast
      constructor <;> linarith
    rw [this]
    ring

theorem round_half_away_nonneg (v : ℚ) (h : 0 ≤ v) : round_half_away v = ⌊v + 1 / 2⌋ := by
  unfold round_half_away
  rw [if_pos h]

/-- The scaled offset `lround(wr * p)` with `wr = (double)W / (double)F`, for a divisor
that is not zero. -/
theorem scaled_eq (W F p : Int) (hF : F ≠ 0) :
    lround (double_mul (double_div (double_of_int W) (double_of_int F)) (double_of_int p)) =
      round_half_away (round_double (round_double ((W : ℚ) / (F : ℚ)) * (p : ℚ))) := by
  have hF' : (F : ℚ) ≠ 0 := by exact_mod_cast hF
  simp [lround, double_mul, double_div, double_of_int, hF']

/-- Division by a zero nominal width leaves no finite ratio, and `lround` gives 0. -/
theorem scaled_zero_divisor (W p : Int) :
    double_div (double_of_int W) (double_of_int 0) = none ∧
    lround (double_mul (double_div (double_of_int W) (double_of_int 0)) (double_of_int p)) =
      0 := by
  simp [lround, double_mul, double_div, double_of_int]

/-- The value `create_keys` rounds with `lround` is within the fraction `3 / 2 ^ 53` of the
exact product `W * p / F`. -/
theorem scaled_close (W F p : Int) :
    |round_double (round_double ((W : ℚ) / (F : ℚ)) * (p : ℚ)) - (W : ℚ) * p / F| ≤
      3 / 2 ^ 53 * |(W : ℚ) * p / F| := by
  have h1 := round_double_sub_le ((W : ℚ) / (F : ℚ))
  have h2 := round_double_sub_le (round_double ((W : ℚ) / (F : ℚ)) * (p : ℚ))
  generalize round_double (round_double ((W : ℚ) / (F : ℚ)) * (p : ℚ)) = v at h2 ⊢
  generalize hr : round_double ((W : ℚ) / (F : ℚ)) = r at h1 h2
  have hx : (W : ℚ) * p / F = (W : ℚ) / F * p := by ring
  rw [hx]
  generalize (W : ℚ) / (F : ℚ) = x0 at h1 ⊢
  have hp : 0 ≤ |(p : ℚ)| := abs_nonneg _
  have hx0 : 0 ≤ |x0| := abs_nonneg _
  -- the product before rounding
  have ht : |r * (p : ℚ) - x0 * p| ≤ |x0| * |(p : ℚ)| / 2 ^ 53 := by
    have : r * (p : ℚ) - x0 * p = (r - x0) * p := by ring
    rw [this, abs_mul]
    calc |r - x0| * |(p : ℚ)| ≤ |x0| / 2 ^ 53 * |(p : ℚ)| :=
          mul_le_mul_of_nonneg_right h1 hp
      _ = |x0| * |(p : ℚ)| / 2 ^ 53 := by ring
  have habs : |r * (p : ℚ)| ≤ |x0| * |(p : ℚ)| + |x0| * |(p : ℚ)| / 2 ^ 53 := by
    have h3 : |r * (p : ℚ)| ≤ |r * (p : ℚ) - x0 * p| + |x0 * p| := by
      have := abs_add (r * (p : ℚ) - x0 * p) (x0 * p)
      simpa using this
    rw [abs_mul x0] at h3
    linarith
  have hxp : |x0 * (p : ℚ)| = |x0| * |(p : ℚ)| := abs_mul _ _
  rw [hxp]
  have htri : |v - x0 * p| ≤ |v - r * p| + |r * p - x0 * p| := by
    have := abs_add (v - r * p) (r * p - x0 * p)
    simpa using this
  have hA : 0 ≤ |x0| * |(p : ℚ)| := mul_nonneg hx0 hp
  have h2' : |v - r * p| ≤ (|x0| * |(p : ℚ)| + |x0| * |(p : ℚ)| / 2 ^ 53) / 2 ^ 53 := by
    calc |v - r * p| ≤ |r * (p : ℚ)| / 2 ^ 53 := h2
      _ ≤ (|x0| * |(p : ℚ)| + |x0| * |(p : ℚ)| / 2 ^ 53) / 2 ^ 53 := by
          apply div_le_div_of_nonneg_right habs
          positivity
  generalize |x0| * |(p : ℚ)| = A at *
  have : A / 2 ^ 53 / 2 ^ 53 ≤ A / 2 ^ 53 := by
    apply div_le_self
    · positivity
    · norm_num
  have e1 : (A + A / 2 ^ 53) / 2 ^ 53 = A / 2 ^ 53 + A / 2 ^ 53 / 2 ^ 53 := by ring
  have e2 : 3 / 2 ^ 53 * A = A / 2 ^ 53 + A / 2 ^ 53 + A / 2 ^ 53 := by ring
  rw [e2]
  linarith

/-- Rounding a whole number of less than 54 bits to binary64 leaves it unchanged. -/
theorem round_double_intCast (z : Int) (h : |z| < 2 ^ 53) : round_double (z : ℚ) = z := by
  by_cases hz : z = 0
  · subst hz
    simp [round_double]
  · have hq : (z : ℚ) ≠ 0 := by exact_mod_cast hz
    have hpos : 0 < |(z : ℚ)| := abs_pos.mpr hq
    have hb : 1 < 2 := by decide
    have h1 : (1 : ℚ) ≤ |(z : ℚ)| := by
      have : (1 : Int) ≤ |z| := Int.one_le_abs hz
      exact_mod_cast this
    have h53 : |(z : ℚ)| < 2 ^ 53 := by exact_mod_cast h
    have hlo : (0 : Int) ≤ Int.log 2 |(z : ℚ)| := by
      apply (Int.zpow_le_iff_le_log hb hpos).mp
      simpa using h1
    have hhi : Int.log 2 |(z : ℚ)| < 53 := by
      apply (Int.lt_zpow_iff_log_lt hb hpos).mp
      have : ((2 : ℕ) : ℚ) ^ (53 : Int) = 2 ^ 53 := by norm_num
      rw [this]
      exact h53
    unfold round_double
    rw [if_neg hq]
    generalize Int.log 2 |(z : ℚ)| = e at hlo hhi
    obtain ⟨k, hk⟩ : ∃ k : Nat, (52 : Int) - e = k := ⟨(52 - e).toNat, by omega⟩
    have hexp : e - 52 = -(k : Int) := by omega
    have hdiv : (z : ℚ) / 2 ^ (e - 52) = ((z * 2 ^ k : Int) : ℚ) := by
      rw [hexp, zpow_neg, zpow_natCast]
      push_cast
      field_simp
    rw [hdiv, round_half_even_intCast, hexp, zpow_neg, zpow_natCast]
    push_cast
    field_simp

/-- Stretching by the ratio `F / F` leaves a reference offset unchanged. -/
theorem scaled_unit_ratio (F p : Int) (hF : F ≠ 0) (hp : |p| < 2 ^ 53) :
    lround (double_mul (double_div (double_of_int F) (double_of_int F)) (double_of_int p)) =
      p := by
  rw [scaled_eq F F p hF]
  have hF' : (F : ℚ) ≠ 0 := by exact_mod_cast hF
  have h1 : (F : ℚ) / (F : ℚ) = ((1 : Int) : ℚ) := by
    rw [div_self hF']; norm_num
  rw [h1, round_double_intCast 1 (by decide)]
  have h2 : ((1 : Int) : ℚ) * (p : ℚ) = (p : ℚ) := by norm_num
  rw [h2, round_double_intCast p hp]
  apply round_half_away_eq
  simp

theorem scaled_51_336 :
    lround (double_mul (double_div (double_of_int 51) (double_of_int 672))
      (double_of_int 336)) = 25 := by
  rw [scaled_eq 51 672 336 (by decide)]
  have h1 : round_double (((51 : Int) : ℚ) / ((672 : Int) : ℚ)) = 5468656690378459 / 2 ^ 56 := by
    rw [round_double_eq _ (-4) (by norm_num) (by norm_num [abs_of_pos])
      (by norm_num [abs_of_pos])]
    norm_num [round_half_even]
  rw [h1]
  have h2 : round_double (5468656690378459 / 2 ^ 56 * ((336 : Int) : ℚ)) = 7177611906121727 / 281474976710656 := by
    rw [round_double_eq _ (4) (by norm_num) (by norm_num [abs_of_pos])
      (by norm_num [abs_of_pos])]
    norm_num [round_half_even]
  rw [h2]
  norm_num [round_half_away]

theorem scaled_392_15 :
    lround (double_mul (double_div (double_of_int 392) (double_of_int 48))
      (double_of_int 15)) = 122 := by
  rw [scaled_eq 392 48 15 (by decide)]
  have h1 : round_double (((392 : Int) : ℚ) / ((48 : Int) : ℚ)) = 4597424619607381 / 2 ^ 49 := by
    rw [round_double_eq _ (3) (by norm_num) (by norm_num [abs_of_pos])
      (by norm_num [abs_of_pos])]
    norm_num [round_half_even]
  rw [h1]
  have h2 : round_double (4597424619607381 / 2 ^ 49 * ((15 : Int) : ℚ)) = 8620171161763839 / 70368744177664 := by
    rw [round_double_eq _ (6) (by norm_num) (by norm_num [abs_of_pos])
      (by norm_num [abs_of_pos])]
    norm_num [round_half_even]
  rw [h2]
  norm_num [round_half_away]

/-- The scaled offset of a reference offset `p ≥ 0` on the 672-unit keyboard stretched to
`W ≥ 0`, between two whole numbers that differ only when `W * p / 672` is halfway between
two whole numbers. -/
theorem scaled_672_bounds (W p : Int) (hW : 0 ≤ W) (hp : 0 ≤ p) (hWp : W * p ≤ 2 ^ 40) :
    (2 * (W * p) + 671) / 1344 ≤
      lround (double_mul (double_div (double_of_int W) (double_of_int 672))
        (double_of_int p)) ∧
    lround (double_mul (double_div (double_of_int W) (double_of_int 672))
        (double_of_int p)) ≤ (2 * (W * p) + 672) / 1344 := by
  rw [scaled_eq W 672 p (by decide)]
  have hc := scaled_close W 672 p
  generalize round_double (round_double ((W : ℚ) / ((672 : Int) : ℚ)) * (p : ℚ)) = v at hc ⊢
  have hn : (0 : Int) ≤ W * p := mul_nonneg hW hp
  have hx0 : (0 : ℚ) ≤ (W : ℚ) * p / ((672 : Int) : ℚ) := by
    have : (0 : ℚ) ≤ ((W * p : Int) : ℚ) := by exact_mod_cast hn
    push_cast at this ⊢
    positivity
  rw [abs_of_nonneg hx0, abs_le] at hc
  have hxn : (W : ℚ) * p / ((672 : Int) : ℚ) = ((W * p : Int) : ℚ) / 672 := by
    push_cast; ring
  rw [hxn] at hc hx0
  have hle : ((W * p : Int) : ℚ) ≤ 2 ^ 40 := by exact_mod_cast hWp
  have hge : (0 : ℚ) ≤ ((W * p : Int) : ℚ) := by exact_mod_cast hn
  generalize W * p = n at *
  have hsmall : 3 / 2 ^ 53 * ((n : ℚ) / 672) ≤ 1 / 2688 := by
    have : 3 / 2 ^ 53 * ((n : ℚ) / 672) ≤ 3 / 2 ^ 53 * ((2 : ℚ) ^ 40 / 672) := by
      apply mul_le_mul_of_nonneg_left
      · apply div_le_div_of_nonneg_right hle; norm_num
      · norm_num
    have h2 : (3 : ℚ) / 2 ^ 53 * ((2 : ℚ) ^ 40 / 672) ≤ 1 / 2688 := by norm_num
    linarith
  have hv0 : 0 ≤ v := by
    have : (n : ℚ) / 672 - 3 / 2 ^ 53 * ((n : ℚ) / 672) ≥ 0 := by
      have h3 : (3 : ℚ) / 2 ^ 53 ≤ 1 := by norm_num
      have : 3 / 2 ^ 53 * ((n : ℚ) / 672) ≤ 1 * ((n : ℚ) / 672) :=
        mul_le_mul_of_nonneg_right h3 hx0
      linarith
    linarith [hc.1]
  rw [round_half_away_nonneg v hv0]
  constructor
  · apply Int.le_floor.mpr
    have h1 : (((2 * n + 671) / 1344 : Int) : ℚ) ≤ ((2 * n + 671 : Int) : ℚ) / 1344 := by
      have : (2 * n + 671) / 1344 * 1344 ≤ 2 * n + 671 := Int.ediv_mul_le _ (by decide)
      have h' : ((((2 * n + 671) / 1344 * 1344 : Int)) : ℚ) ≤ ((2 * n + 671 : Int) : ℚ) := by
        exact_mod_cast this
      push_cast at h' ⊢
      linarith
    push_cast at h1 ⊢
    linarith [hc.1]
  · have hlt : v + 1 / 2 < (((2 * n + 672) / 1344 + 1 : Int) : ℚ) := by
      have : 2 * n + 672 + 1 ≤ ((2 * n + 672) / 1344 + 1) * 1344 := by omega
      have h' : ((2 * n + 672 + 1 : Int) : ℚ) ≤
          ((((2 * n + 672) / 1344 + 1) * 1344 : Int) : ℚ) := by exact_mod_cast this
      push_cast at h' ⊢
      linarith [hc.2]
    have := Int.floor_lt.mpr hlt
    omega

theorem keypos_eq : Impl.keypos_ = [0, 15, 24, 43, 48, 72, 85, 96, 113, 120, 141, 144] := by
  decide

/-- The reference offset in closed form: the table entry plus 168 per octave, as a 32-bit
`int`. -/
theorem key_position_eq (key : Nat) :
    Impl.key_position key =
      int32 ([0, 15, 24, 43, 48, 72, 85, 96, 113, 120, 141, 144].getD (key % 12) 0 +
        ((key / 12 : Nat) : Int) * 168) := by
  unfold Impl.key_position
  rw [keypos_eq]
  simp only [List.getD_cons_succ, List.getD_cons_zero]
  generalize ([0, 15, 24, 43, 48, 72, 85, 96, 113, 120, 141, 144] : List Int).getD
    (key % 12) 0 = t
  generalize ((key / 12 : Nat) : Int) = q
  unfold int32
  omega

theorem keypos_getD_range (r : Nat) :
    0 ≤ ([0, 15, 24, 43, 48, 72, 85, 96, 113, 120, 141, 144] : List Int).getD r 0 ∧
    ([0, 15, 24, 43, 48, 72, 85, 96, 113, 120, 141, 144] : List Int).getD r 0 ≤ 144 := by
  by_cases h : r < 12
  · interval_cases r <;> decide
  · rw [List.getD_eq_default _ _ (by simp only [List.length_cons, List.length_nil]; omega)]
    decide

/-- Up to key 153391689 no operation of `key_position` overflows. -/
theorem key_position_exact (key : Nat) (h : key ≤ 153391689) :
    Impl.key_position key =
      [0, 15, 24, 43, 48, 72, 85, 96, 113, 120, 141, 144].getD (key % 12) 0 +
        ((key / 12 : Nat) : Int) * 168 := by
  rw [key_position_eq]
  have hr : key % 12 < 12 := Nat.mod_lt _ (by decide)
  have hq : key / 12 ≤ 12782640 := by omega
  have hqr : key / 12 = 12782640 → key % 12 ≤ 9 := by omega
  apply int32_of_range
  · have := (keypos_getD_range (key % 12)).1
    have hq0 : (0 : Int) ≤ ((key / 12 : Nat) : Int) := by positivity
    omega
  · by_cases hlast : key / 12 = 12782640
    · have hr9 := hqr hlast
      rw [hlast]
      generalize key % 12 = r at hr9
      interval_cases r <;> decide
    · have := (keypos_getD_range (key % 12)).2
      have hq' : ((key / 12 : Nat) : Int) ≤ 12782639 := by omega
      omega

theorem next_white_key_2 : Impl.next_white_key 2 = 4 := by
  rw [next_white_key_eq 2 (by decide)]
  decide

theorem create_keys_fullw_3 : Impl.create_keys_fullw 3 = 48 := by
  have hc : Impl.key_color 2 = Key_White := by decide
  simp only [Impl.create_keys_fullw, Impl.key_width, Nat.add_one_sub_one, Nat.reduceSub, hc,
    if_true, next_white_key_2]
  decide

theorem piano3_eq : piano3 =
    { x := 0, y := 0, w := 48, h := 20, box_ := (2, 2), bg_ := (4008635392, 2290779392),
      keys_ :=
        [ { x := 0, y := 0, w := 24, h := 20, key_ := 0, value_ := false,
            color_ := 4008635392, selection_color_ := 4008635392, box_ := 2,
            visible_focus_ := false },
          { x := 15, y := 0, w := 14, h := 10, key_ := 1, value_ := false,
            color_ := 2290779392, selection_color_ := 2290779392, box_ := 2,
            visible_focus_ := false },
          { x := 24, y := 0, w := 24, h := 20, key_ := 2, value_ := false,
            color_ := 4008635392, selection_color_ := 4008635392, box_ := 2,
            visible_focus_ := false } ],
      pushed_key_ := 4294967295, event_type_ := PIANO_PRESS, event_key_ := 0,
      callbacks_ := [] } := by
  have hk : piano3.keys_ = _ := create_keys_keys (Impl.init 0 0 48 20) 3
  have hrest : piano3 = { Impl.init 0 0 48 20 with keys_ := piano3.keys_ } := rfl
  have hs : ∀ p : Int, |p| < 2 ^ 53 →
      lround (double_mul (Impl.create_keys_wr (Impl.init 0 0 48 20) 3) (double_of_int p)) =
        p := by
    intro p hp
    unfold Impl.create_keys_wr
    rw [create_keys_fullw_3]
    exact scaled_unit_ratio 48 p (by decide) hp
  have hn0 : Impl.next_white_key 0 = 2 := by
    rw [next_white_key_eq 0 (by decide)]; decide
  have hp0 : Impl.key_position 0 = 0 := by decide
  have hp1 : Impl.key_position 1 = 15 := by decide
  have hp2 : Impl.key_position 2 = 24 := by decide
  have hp4 : Impl.key_position 4 = 48 := by decide
  have hc0 : Impl.key_color 0 = Key_White := by decide
  have hc1 : ¬ Impl.key_color 1 = Key_White := by decide
  have hc2 : Impl.key_color 2 = Key_White := by decide
  rw [hrest, hk]
  simp only [List.range, List.range.loop, List.map_cons, List.map_nil, Impl.create_keys_button,
    hc0, hc1, hc2, if_true, if_false, hn0, next_white_key_2, hp0, hp1, hp2, hp4,
    black_keywidth]
  rw [hs 0 (by decide), hs 15 (by decide), hs 24 (by decide), hs 48 (by decide),
    hs 14 (by decide)]
  decide

theorem piano3_wf : piano3.wf := wf_create_keys _ 3 (by decide)

theorem piano3_two_pressed_eq : piano3_two_pressed =
    { x := 0, y := 0, w := 48, h := 20, box_ := (2, 2), bg_ := (4008635392, 2290779392),
      keys_ :=
        [ { x := 0, y := 0, w := 24, h := 20, key_ := 0, value_ := true,
            color_ := 4008635392, selection_color_ := 4008635392, box_ := 2,
            visible_focus_ := false },
          { x := 15, y := 0, w := 14, h := 10, key_ := 1, value_ := false,
            color_ := 2290779392, selection_color_ := 2290779392, box_ := 2,
            visible_focus_ := false },
          { x := 24, y := 0, w := 24, h := 20, key_ := 2, value_ := true,
            color_ := 4008635392, selection_color_ := 4008635392, box_ := 2,
            visible_focus_ := false } ],
      pushed_key_ := 0, event_type_ := PIANO_PRESS, event_key_ := 0,
      callbacks_ := [(PIANO_PRESS, 2), (PIANO_PRESS, 0)] } := by
  rw [piano3_two_pressed, piano3_eq]
  decide

theorem piano3_host_released_eq : piano3_host_released =
    { x := 0, y := 0, w := 48, h := 20, box_ := (2, 2), bg_ := (4008635392, 2290779392),
      keys_ :=
        [ { x := 0, y := 0, w := 24, h := 20, key_ := 0, value_ := false,
            color_ := 4008635392, selection_color_ := 4008635392, box_ := 2,
            visible_focus_ := false },
          { x := 15, y := 0, w := 14, h := 10, key_ := 1, value_ := false,
            color_ := 2290779392, selection_color_ := 2290779392, box_ := 2,
            visible_focus_ := false },
          { x := 24, y := 0, w := 24, h := 20, key_ := 2, value_ := false,
            color_ := 4008635392, selection_color_ := 4008635392, box_ := 2,
            visible_focus_ := false } ],
      pushed_key_ := 0, event_type_ := PIANO_RELEASE, event_key_ := 0,
      callbacks_ := [(PIANO_PRESS, 0), (PIANO_RELEASE, 0)] } := by
  rw [piano3_host_released, piano3_eq]
  decide

theorem piano3_two_pressed_wf : piano3_two_pressed.wf :=
  wf_handle_key _ (wf_press_key _ piano3_wf _) _ _ _

theorem piano3_host_released_wf : piano3_host_released.wf :=
  wf_release_key _ (wf_handle_key _ piano3_wf _ _ _) _

/-- The black key of `piano3`, as `create_keys` built it. -/
theorem piano3_black_key : piano3.keys_[1]? = some
    { x := 15, y := 0, w := 14, h := 10, key_ := 1, value_ := false,
      color_ := 2290779392, selection_color_ := 2290779392, box_ := 2,
      visible_focus_ := false } := by
  rw [piano3_eq]; rfl

theorem piano3_all_released (i : Nat) (k : Key_Button) (h : piano3.keys_[i]? = some k) :
    k.value_ = false := by
  rw [piano3_eq] at h
  match i, h with
  | 0, h => simp at h; rw [← h]
  | 1, h => simp at h; rw [← h]
  | 2, h => simp at h; rw [← h]
  | (n + 3), h => simp at h

theorem C5_pointer_down_black_key_witness :
    (piano3.wf ∧ piano3.pushed_key_ = unsigned_minus_one ∧ Impl.key_color 1 = Key_Black ∧
      (∃ w, piano3.keys_[0]? = some w ∧ Impl.inside w 16 5 = true)) ∧
    ((Impl.handle_key piano3 FL_PUSH 16 5).1.callbacks_ =
        piano3.callbacks_ ++ [(PIANO_PRESS, 1)] ∧
      key_value (Impl.handle_key piano3 FL_PUSH 16 5).1 1 = 1 ∧
      (Impl.handle_key piano3 FL_PUSH 16 5).1.pushed_key_ = 1 ∧
      (∀ j, Impl.key_color j = Key_White →
        key_value (Impl.handle_key piano3 FL_PUSH 16 5).1 j = 0) ∧
      (Impl.handle_key piano3 FL_PUSH 16 5).2 = 1) :=
  ⟨⟨piano3_wf, by rw [piano3_eq]; rfl, by decide, by rw [piano3_eq]; exact ⟨_, rfl, by decide⟩⟩,
    C5_pointer_down_black_key piano3 16 5 1 _ piano3_wf (by rw [piano3_eq]; rfl)
      piano3_all_released piano3_black_key (by decide) (by decide)
      (by
        intro j bj hj _ hc
        have : j = 0 := by omega
        subst this
        exact absurd hc (by decide))⟩

/-! ## Pointer drag from one key to another -/

/-- C6, as the code has it: in a state where key `A` is the tracked pushed key and is
pressed, a pointer-drag or pointer-down whose point hit-tests to a key `B ≠ A` that is
released fires exactly two events, `RELEASE(A)` then `PRESS(B)`, and afterwards `B` is the
tracked pushed key, `A` is released and `B` is pressed. -/
theorem C6_drag_to_released_key (s : Impl) (event x y : Int) (A B : Nat) (a b : Key_Button)
    (hwf : s.wf) (hev : event = FL_PUSH ∨ event = FL_DRAG)
    (hA : s.pushed_key_ = A) (ha : s.keys_[A]? = some a) (hav : a.value_ = true)
    (hb : Impl.key_at s x y = some b) (hB : b.piano_key = B) (hne : B ≠ A)
    (hbv : b.value_ = false) :
    (Impl.handle_key s event x y).1.callbacks_ =
      s.callbacks_ ++ [(PIANO_RELEASE, A), (PIANO_PRESS, B)] ∧
    (Impl.handle_key s event x y).1.pushed_key_ = B ∧
    key_value (Impl.handle_key s event x y).1 A = 0 ∧
    key_value (Impl.handle_key s event x y).1 B = 1 := by
  have hkb : s.keys_[B]? = some b := by
    rw [← hB]; exact key_at_some_wf s hwf x y b hb
  have hltA : A < s.keys_.length := getElem?_lt_length ha
  have hltB : B < s.keys_.length := getElem?_lt_length hkb
  have hne2 : b.piano_key ≠ s.pushed_key_ := by rw [hB, hA]; exact hne
  rw [handle_key_move s event hev x y b hb hne2, hA, hB, release_key_pressed s A a ha hav]
  have hkb1 : (s.keys_.set A { a with value_ := false })[B]? = some b := by
    rw [List.getElem?_set_ne (Ne.symm hne)]; exact hkb
  rw [press_key_released _ B b hkb1 hbv]
  refine ⟨by simp, rfl, ?_, ?_⟩
  · apply key_value_eq_zero
    intro k hk
    simp only [List.getElem?_set_ne hne, List.getElem?_set_self hltA, Option.some.injEq] at hk
    rw [← hk]
  · rw [key_value_eq_one]
    refine ⟨{ b with value_ := true }, ?_, rfl⟩
    have : B < (s.keys_.set A { a with value_ := false }).length := by simpa using hltB
    simp [List.getElem?_set_self this]

/-- C6 fails as stated: in `piano3_two_pressed` key 0 is the tracked pushed key and is
pressed, the point (30, 15) hit-tests to key 2, and the drag fires `RELEASE(0)` only, since
key 2 is already pressed. -/
theorem C6_counterexample :
    piano3_two_pressed.wf ∧ piano3_two_pressed.pushed_key_ = 0 ∧
    key_value piano3_two_pressed 0 = 1 ∧
    (∃ b, Impl.key_at piano3_two_pressed 30 15 = some b ∧ b.piano_key = 2) ∧
    (Impl.handle_key piano3_two_pressed FL_DRAG 30 15).1.callbacks_ =
      piano3_two_pressed.callbacks_ ++ [(PIANO_RELEASE, 0)] ∧
    (Impl.handle_key piano3_two_pressed FL_DRAG 30 15).1.callbacks_ ≠
      piano3_two_pressed.callbacks_ ++ [(PIANO_RELEASE, 0), (PIANO_PRESS, 2)] := by
  refine ⟨piano3_two_pressed_wf, ?_, ?_, ?_, ?_, ?_⟩ <;> rw [piano3_two_pressed_eq]
  · decide
  · exact ⟨_, rfl, rfl⟩
  · decide
  · decide

theorem C6_drag_to_released_key_witness :
    (piano3_two_pressed.wf ∧ piano3_two_pressed.pushed_key_ = 0 ∧
      key_value piano3_two_pressed 0 = 1 ∧
      (∃ b, Impl.key_at piano3_two_pressed 16 5 = some b ∧ b.piano_key = 1 ∧
        b.value_ = false)) ∧
    ((Impl.handle_key piano3_two_pressed FL_DRAG 16 5).1.callbacks_ =
        piano3_two_pressed.callbacks_ ++ [(PIANO_RELEASE, 0), (PIANO_PRESS, 1)] ∧
      (Impl.handle_key piano3_two_pressed FL_DRAG 16 5).1.pushed_key_ = 1 ∧
      key_value (Impl.handle_key piano3_two_pressed FL_DRAG 16 5).1 0 = 0 ∧
      key_value (Impl.handle_key piano3_two_pressed FL_DRAG 16 5).1 1 = 1) :=
  ⟨⟨piano3_two_pressed_wf, by rw [piano3_two_pressed_eq], by rw [piano3_two_pressed_eq]; decide,
      by rw [piano3_two_pressed_eq]; exact ⟨_, rfl, rfl, rfl⟩⟩,
    C6_drag_to_released_key piano3_two_pressed FL_DRAG 16 5 0 1
      { x := 0, y := 0, w := 24, h := 20, key_ := 0, value_ := true,
        color_ := 4008635392, selection_color_ := 4008635392, box_ := 2,
        visible_focus_ := false }
      { x := 15, y := 0, w := 14, h := 10, key_ := 1, value_ := false,
        color_ := 2290779392, selection_color_ := 2290779392, box_ := 2,
        visible_focus_ := false }
      piano3_two_pressed_wf (Or.inr rfl) (by rw [piano3_two_pressed_eq])
      (by rw [piano3_two_pressed_eq]; rfl) rfl (by rw [piano3_two_pressed_eq]; rfl) rfl
      (by decide) rfl⟩

/-! ## Pointer up -/

/-- C7, as the code has it: handling a pointer-up fires exactly one event, `RELEASE(p)`,
when the tracked pushed key `p` is a key that is currently pressed, and fires no event when
no key is tracked as pushed or when the tracked key is not a pressed key; in every case the
tracked pushed key is none afterwards and the event is consumed, whatever the pointer
position. -/
theorem C7_pointer_up (s : Impl) (x y : Int) :
    (∀ b, s.keys_[s.pushed_key_]? = some b → b.value_ = true →
      (Impl.handle_key s FL_RELEASE x y).1.callbacks_ =
        s.callbacks_ ++ [(PIANO_RELEASE, s.pushed_key_)] ∧
      key_value (Impl.handle_key s FL_RELEASE x y).1 s.pushed_key_ = 0) ∧
    (s.keys_.length < 2 ^ 32 → s.pushed_key_ = unsigned_minus_one →
      (Impl.handle_key s FL_RELEASE x y).1.callbacks_ = s.callbacks_) ∧
    ((∀ b, s.keys_[s.pushed_key_]? = some b → b.value_ = false) →
      (Impl.handle_key s FL_RELEASE x y).1.callbacks_ = s.callbacks_) ∧
    (Impl.handle_key s FL_RELEASE x y).1.pushed_key_ = unsigned_minus_one ∧
    (Impl.handle_key s FL_RELEASE x y).2 = 1 := by
  rw [handle_key_release]
  refine ⟨?_, ?_, ?_, rfl, rfl⟩
  · intro b hb hv
    rw [release_key_pressed s _ b hb hv]
    refine ⟨rfl, ?_⟩
    apply key_value_eq_zero
    intro k hk
    simp only [List.getElem?_set_self (getElem?_lt_length hb), Option.some.injEq] at hk
    rw [← hk]
  · intro hlen hnone
    rw [hnone, release_key_unsigned_minus_one s hlen]
  · intro h
    rw [release_key_noop s _ h]

/-- C7 fails as stated: in `piano3_host_released` the tracked pushed key is key 0, which
the host has released, and the pointer-up fires no event. -/
theorem C7_counterexample :
    piano3_host_released.wf ∧ piano3_host_released.pushed_key_ = 0 ∧
    0 < key_count piano3_host_released ∧
    (Impl.handle_key piano3_host_released FL_RELEASE 5 15).1.callbacks_ =
      piano3_host_released.callbacks_ ∧
    (Impl.handle_key piano3_host_released FL_RELEASE 5 15).1.callbacks_ ≠
      piano3_host_released.callbacks_ ++ [(PIANO_RELEASE, 0)] := by
  refine ⟨piano3_host_released_wf, ?_, ?_, ?_, ?_⟩ <;> rw [piano3_host_released_eq]
  · decide
  · decide
  · decide

theorem C7_pointer_up_witness :
    (∃ b, piano3_two_pressed.keys_[piano3_two_pressed.pushed_key_]? = some b ∧
      b.value_ = true) ∧
    (Impl.handle_key piano3_two_pressed FL_RELEASE 30 15).1.callbacks_ =
      piano3_two_pressed.callbacks_ ++ [(PIANO_RELEASE, piano3_two_pressed.pushed_key_)] ∧
    key_value (Impl.handle_key piano3_two_pressed FL_RELEASE 30 15).1
      piano3_two_pressed.pushed_key_ = 0 :=
  have h : ∃ b, piano3_two_pressed.keys_[piano3_two_pressed.pushed_key_]? = some b ∧
      b.value_ = true := by
    rw [piano3_two_pressed_eq]; exact ⟨_, rfl, rfl⟩
  ⟨h, h.elim (fun b hb => (C7_pointer_up piano3_two_pressed 30 15).1 b hb.1 hb.2)⟩


/-! ## Black keys between their white neighbours -/

theorem create_keys_button_x (s : Impl) (wr : Double) (k : Nat) :
    (Impl.create_keys_button s wr k).x =
      s.x + lround (double_mul wr (double_of_int (Impl.key_position k))) := by
  unfold Impl.create_keys_button
  split <;> rfl

theorem create_keys_button_right_white (s : Impl) (wr : Double) (k : Nat)
    (h : Impl.key_color k = Key_White) :
    (Impl.create_keys_button s wr k).x + (Impl.create_keys_button s wr k).w =
      s.x + lround (double_mul wr
        (double_of_int (Impl.key_position (Impl.next_white_key k)))) := by
  simp only [Impl.create_keys_button, h, if_true]
  ring

theorem next_white_key_47 : Impl.next_white_key 47 = 48 := by
  rw [next_white_key_eq 47 (by decide)]
  decide

/-- The nominal full width of the 48-key keyboard. -/
theorem create_keys_fullw_48 : Impl.create_keys_fullw 48 = 672 := by
  have hc : Impl.key_color 47 = Key_White := by decide
  simp only [Impl.create_keys_fullw, Impl.key_width, Nat.add_one_sub_one, Nat.reduceSub, hc,
    if_true, next_white_key_47]
  decide

theorem create_keys_wr_48 (s : Impl) :
    Impl.create_keys_wr s 48 = double_div (double_of_int s.w) (double_of_int 672) := by
  unfold Impl.create_keys_wr
  rw [create_keys_fullw_48]

/-- Two halfway cases where the double arithmetic decides the pixel. In the 48-key keyboard
at width 51 the offset of key 24 is `51 * 336 / 672 = 25.5`; the ratio `51 / 672` rounds
down, the product is just below 25.5, and key 24 starts at 25 and is 2 wide, key 23 starts
at 24 and is 1 wide. In the 3-key keyboard at width 392 the offset of the black key is
`392 * 15 / 48 = 122.5` and the key starts at 122. -/
theorem create_keys_halfway_examples :
    (∃ b, (new 0 0 51 100).keys_[23]? = some b ∧ b.x = 24 ∧ b.w = 1) ∧
    (∃ b, (new 0 0 51 100).keys_[24]? = some b ∧ b.x = 25 ∧ b.w = 2) ∧
    (∃ b, (Impl.create_keys (Impl.init 0 0 392 100) 3).keys_[1]? = some b ∧ b.x = 122) := by
  have h312 : lround (double_mul (double_div (double_of_int 51) (double_of_int 672))
      (double_of_int 312)) = 24 := by
    have hb := scaled_672_bounds 51 312 (by decide) (by decide) (by decide)
    have e1 : (2 * ((51 : Int) * 312) + 671) / 1344 = 24 := by decide
    have e2 : (2 * ((51 : Int) * 312) + 672) / 1344 = 24 := by decide
    rw [e1, e2] at hb
    omega
  have h360 : lround (double_mul (double_div (double_of_int 51) (double_of_int 672))
      (double_of_int 360)) = 27 := by
    have hb := scaled_672_bounds 51 360 (by decide) (by decide) (by decide)
    have e1 : (2 * ((51 : Int) * 360) + 671) / 1344 = 27 := by decide
    have e2 : (2 * ((51 : Int) * 360) + 672) / 1344 = 27 := by decide
    rw [e1, e2] at hb
    omega
  have p23 : Impl.key_position 23 = 312 := by decide
  have p24 : Impl.key_position 24 = 336 := by decide
  have p26 : Impl.key_position 26 = 360 := by decide
  have p1 : Impl.key_position 1 = 15 := by decide
  have n23 : Impl.next_white_key 23 = 24 := by
    rw [next_white_key_eq 23 (by decide)]; decide
  have n24 : Impl.next_white_key 24 = 26 := by
    rw [next_white_key_eq 24 (by decide)]; decide
  have c23 : Impl.key_color 23 = Key_White := by decide
  have c24 : Impl.key_color 24 = Key_White := by decide
  have x23 : (Impl.create_keys_button (Impl.init 0 0 51 100)
      (Impl.create_keys_wr (Impl.init 0 0 51 100) 48) 23).x = 24 := by
    rw [create_keys_button_x, create_keys_wr_48, p23]
    simp only [Impl.init]
    rw [h312]; rfl
  have x24 : (Impl.create_keys_button (Impl.init 0 0 51 100)
      (Impl.create_keys_wr (Impl.init 0 0 51 100) 48) 24).x = 25 := by
    rw [create_keys_button_x, create_keys_wr_48, p24]
    simp only [Impl.init]
    rw [scaled_51_336]; rfl
  have e23 : (Impl.init 0 0 51 100).x +
      lround (double_mul (Impl.create_keys_wr (Impl.init 0 0 51 100) 48)
        (double_of_int (Impl.key_position (Impl.next_white_key 23)))) = 25 := by
    rw [n23, p24, create_keys_wr_48]
    simp only [Impl.init]
    rw [scaled_51_336]; rfl
  have e24 : (Impl.init 0 0 51 100).x +
      lround (double_mul (Impl.create_keys_wr (Impl.init 0 0 51 100) 48)
        (double_of_int (Impl.key_position (Impl.next_white_key 24)))) = 27 := by
    rw [n24, p26, create_keys_wr_48]
    simp only [Impl.init]
    rw [h360]; rfl
  have r23 := create_keys_button_right_white (Impl.init 0 0 51 100)
    (Impl.create_keys_wr (Impl.init 0 0 51 100) 48) 23 c23
  have r24 := create_keys_button_right_white (Impl.init 0 0 51 100)
    (Impl.create_keys_wr (Impl.init 0 0 51 100) 48) 24 c24
  rw [x23, e23] at r23
  rw [x24, e24] at r24
  refine ⟨⟨_, create_keys_getElem? _ 48 23 (by decide), x23, by omega⟩,
    ⟨_, create_keys_getElem? _ 48 24 (by decide), x24, by omega⟩,
    ⟨_, create_keys_getElem? _ 3 1 (by decide), ?_⟩⟩
  rw [create_keys_button_x, p1]
  unfold Impl.create_keys_wr
  rw [create_keys_fullw_3]
  simp only [Impl.init]
  rw [scaled_392_15]; rfl

/-! ## Rebuilding the keys -/

theorem create_keys_button_key (s : Impl) (wr : Double) (k : Nat) :
    (Impl.create_keys_button s wr k).piano_key = k := by
  unfold Impl.create_keys_button Key_Button.piano_key
  split <;> rfl

theorem create_keys_piano_keys (s : Impl) (nkeys : Nat) :
    (Impl.create_keys s nkeys).keys_.map Key_Button.piano_key = List.range nkeys := by
  rw [create_keys_keys, List.map_map]
  have : Key_Button.piano_key ∘ Impl.create_keys_button s (Impl.create_keys_wr s nkeys) = id := by
    funext k
    exact create_keys_button_key s _ k
  rw [this, List.map_id]

/-- C9: for every prior state and every `n`, after `key_count(n)` the widget holds exactly
`n` key controls and the control in slot `i` carries piano key `i` for every `i < n`;
`key_count(0)` leaves no key; `key_count(0)` then `key_count(13)` leaves exactly 13 keys,
whose colours in slot order are those of one octave (7 white, 5 black) followed by one more
white key. -/
theorem C9_key_count (s : Impl) (n : Nat) :
    key_count (key_count_set s n) = n ∧
    (∀ i, i < n → ∃ b, (key_count_set s n).keys_[i]? = some b ∧ b.piano_key = i) ∧
    (key_count_set s 0).keys_ = [] ∧
    key_count (key_count_set (key_count_set s 0) 13) = 13 ∧
    (key_count_set (key_count_set s 0) 13).keys_.map (fun b => Impl.key_color b.piano_key) =
      [Key_White, Key_Black, Key_White, Key_Black, Key_White, Key_White, Key_Black, Key_White,
        Key_Black, Key_White, Key_Black, Key_White, Key_White] ∧
    (((key_count_set (key_count_set s 0) 13).keys_.take 12).filter
      (fun b => Impl.key_color b.piano_key = Key_White)).length = 7 ∧
    (((key_count_set (key_count_set s 0) 13).keys_.take 12).filter
      (fun b => Impl.key_color b.piano_key = Key_Black)).length = 5 := by
  have hlen : ∀ (t : Impl) (m : Nat), key_count (key_count_set t m) = m := by
    intro t m
    unfold key_count key_count_set
    rw [create_keys_keys]
    simp
  have hcol : ∀ (t : Impl) (m : Nat),
      (key_count_set t m).keys_.map (fun b => Impl.key_color b.piano_key) =
        (List.range m).map Impl.key_color := by
    intro t m
    have := create_keys_piano_keys t m
    unfold key_count_set
    rw [← this, List.map_map]
    rfl
  have hfilter : ∀ (t : Impl) (c : Key_Color),
      (((key_count_set t 13).keys_.take 12).filter
        (fun b => Impl.key_color b.piano_key = c)).length =
      ((((List.range 13).map Impl.key_color).take 12).filter (fun d => d = c)).length := by
    intro t c
    rw [← hcol t 13, ← List.map_take, List.filter_map, List.length_map]
    rfl
  refine ⟨hlen s n, ?_, ?_, hlen _ 13, ?_, ?_, ?_⟩
  · intro i hi
    exact ⟨_, create_keys_getElem? s n i hi, create_keys_button_key s _ i⟩
  · unfold key_count_set
    rw [create_keys_keys]
    rfl
  · rw [hcol _ 13]
    decide
  · rw [hfilter]
    decide
  · rw [hfilter]
    decide

/-! ## Restyling -/

/-- A loop that modifies slot `key` by `f key`, run over the keys below `m`, has modified
exactly those slots. -/
theorem foldl_modify_getElem? {α : Type} (f : Nat → α → α) (l : List α) (m i : Nat) :
    ((List.range m).foldl (fun keys key => keys.modify (f key) key) l)[i]? =
      if i < m then (l[i]?).map (f i) else l[i]? := by
  induction m with
  | zero => simp
  | succ m ih =>
    rw [List.range_succ, List.foldl_append]
    simp only [List.foldl_cons, List.foldl_nil]
    by_cases him : m = i
    · subst him
      rw [List.getElem?_modify_eq, ih]
      simp
    · rw [List.getElem?_modify_ne _ _ him, ih]
      have : i < m + 1 ↔ i < m := by omega
      simp only [this]

theorem foldl_modify_length {α : Type} (f : Nat → α → α) (l : List α) (m : Nat) :
    ((List.range m).foldl (fun keys key => keys.modify (f key) key) l).length = l.length := by
  induction m with
  | zero => simp
  | succ m ih =>
    rw [List.range_succ, List.foldl_append]
    simp only [List.foldl_cons, List.foldl_nil, List.length_modify]
    exact ih

/-- C10: for every widget state and pair of styles, `key_color(wh, bl)` gives every
existing white key the background `wh` and every existing black key the background `bl`,
and `key_box(wh, bl)` gives every existing white key the box style `wh` and every existing
black key the box style `bl`; nothing else of a key changes (its pressed value and its
rectangle stay), the key count, the tracked pushed key, the last-event slot and the log of
fired events are unchanged, and the getter returns the pair just set. -/
theorem C10_restyle (s : Impl) (wh bl : Nat) :
    (key_color (key_color_set s wh bl) = (wh, bl) ∧
      (∀ (i : Nat) (b : Key_Button), s.keys_[i]? = some b →
        (key_color_set s wh bl).keys_[i]? = some
          { b with color_ := if Impl.key_color i = Key_White then wh else bl,
                   selection_color_ := if Impl.key_color i = Key_White then wh else bl }) ∧
      key_count (key_color_set s wh bl) = key_count s ∧
      (key_color_set s wh bl).pushed_key_ = s.pushed_key_ ∧
      (key_color_set s wh bl).callbacks_ = s.callbacks_ ∧
      (key_color_set s wh bl).event_type_ = s.event_type_ ∧
      (key_color_set s wh bl).event_key_ = s.event_key_ ∧
      key_box (key_color_set s wh bl) = key_box s) ∧
    (key_box (key_box_set s wh bl) = (wh, bl) ∧
      (∀ (i : Nat) (b : Key_Button), s.keys_[i]? = some b →
        (key_box_set s wh bl).keys_[i]? = some
          { b with box_ := if Impl.key_color i = Key_White then wh else bl }) ∧
      key_count (key_box_set s wh bl) = key_count s ∧
      (key_box_set s wh bl).pushed_key_ = s.pushed_key_ ∧
      (key_box_set s wh bl).callbacks_ = s.callbacks_ ∧
      (key_box_set s wh bl).event_type_ = s.event_type_ ∧
      (key_box_set s wh bl).event_key_ = s.event_key_ ∧
      key_color (key_box_set s wh bl) = key_color s) := by
  have hc : (key_color_set s wh bl).keys_ =
      (List.range s.keys_.length).foldl (fun keys key => keys.modify
        (fun btn => { btn with color_ := if Impl.key_color key = Key_White then wh else bl,
                               selection_color_ :=
                                 if Impl.key_color key = Key_White then wh else bl }) key)
        s.keys_ := rfl
  have hb : (key_box_set s wh bl).keys_ =
      (List.range s.keys_.length).foldl (fun keys key => keys.modify
        (fun btn => { btn with box_ := if Impl.key_color key = Key_White then wh else bl }) key)
        s.keys_ := rfl
  refine ⟨⟨rfl, ?_, ?_, rfl, rfl, rfl, rfl, rfl⟩, ⟨rfl, ?_, ?_, rfl, rfl, rfl, rfl, rfl⟩⟩
  · intro i b hi
    have h := foldl_modify_getElem? (fun key (btn : Key_Button) =>
      { btn with color_ := if Impl.key_color key = Key_White then wh else bl,
                 selection_color_ := if Impl.key_color key = Key_White then wh else bl })
      s.keys_ s.keys_.length i
    rw [hc, h]
    simp [getElem?_lt_length hi, hi]
  · unfold key_count
    rw [hc]
    exact foldl_modify_length (fun key (btn : Key_Button) =>
      { btn with color_ := if Impl.key_color key = Key_White then wh else bl,
                 selection_color_ := if Impl.key_color key = Key_White then wh else bl })
      s.keys_ s.keys_.length
  · intro i b hi
    have h := foldl_modify_getElem? (fun key (btn : Key_Button) =>
      { btn with box_ := if Impl.key_color key = Key_White then wh else bl })
      s.keys_ s.keys_.length i
    rw [hb, h]
    simp [getElem?_lt_length hi, hi]
  · unfold key_count
    rw [hb]
    exact foldl_modify_length (fun key (btn : Key_Button) =>
      { btn with box_ := if Impl.key_color key = Key_White then wh else bl })
      s.keys_ s.keys_.length

/-! ## Direct access to a key value -/

/-- C11: `key_value(k, v)` with `k < key_count` makes `key_value(k)` read back the written
state (1 when `v` is not zero, 0 when it is), changes nothing else of key `k`, leaves every
other key, the key count, the tracked pushed key and the last-event slot unchanged and fires
no event; with `k ≥ key_count` it changes nothing; and `key_value(k)` with `k ≥ key_count`
returns 0. -/
theorem C11_key_value (s : Impl) (k : Nat) (v : Int) :
    (k < key_count s →
      key_value (key_value_set s k v) k = (if v ≠ 0 then 1 else 0) ∧
      (∀ (b : Key_Button), s.keys_[k]? = some b →
        (key_value_set s k v).keys_[k]? = some { b with value_ := decide (v ≠ 0) }) ∧
      (∀ j, j ≠ k → (key_value_set s k v).keys_[j]? = s.keys_[j]?) ∧
      (∀ j, j ≠ k → key_value (key_value_set s k v) j = key_value s j)) ∧
    key_count (key_value_set s k v) = key_count s ∧
    (key_value_set s k v).pushed_key_ = s.pushed_key_ ∧
    (key_value_set s k v).callbacks_ = s.callbacks_ ∧
    (key_value_set s k v).event_type_ = s.event_type_ ∧
    (key_value_set s k v).event_key_ = s.event_key_ ∧
    (k ≥ key_count s → key_value_set s k v = s) ∧
    (k ≥ key_count s → key_value s k = 0) := by
  by_cases hk : k ≥ s.keys_.length
  · have hset : key_value_set s k v = s := by simp [key_value_set, hk]
    rw [hset]
    refine ⟨?_, rfl, rfl, rfl, rfl, rfl, fun _ => rfl, ?_⟩
    · intro hlt
      simp only [key_count] at hlt
      omega
    · intro _
      simp [key_value, hk]
  · have hlt : k < s.keys_.length := by omega
    have hkeys : (key_value_set s k v).keys_ =
        s.keys_.modify (fun btn => { btn with value_ := decide (v ≠ 0) }) k := by
      simp [key_value_set, hk]
    have hother : ∀ j, j ≠ k → (key_value_set s k v).keys_[j]? = s.keys_[j]? := by
      intro j hj
      rw [hkeys, List.getElem?_modify_ne _ _ (Ne.symm hj)]
    have hlen : (key_value_set s k v).keys_.length = s.keys_.length := by
      rw [hkeys, List.length_modify]
    have hrest : (key_value_set s k v).pushed_key_ = s.pushed_key_ ∧
        (key_value_set s k v).callbacks_ = s.callbacks_ ∧
        (key_value_set s k v).event_type_ = s.event_type_ ∧
        (key_value_set s k v).event_key_ = s.event_key_ := by
      simp [key_value_set, hk]
    refine ⟨?_, hlen, hrest.1, hrest.2.1, hrest.2.2.1, hrest.2.2.2, ?_, ?_⟩
    · intro _
      have hself : ∀ (b : Key_Button), s.keys_[k]? = some b →
          (key_value_set s k v).keys_[k]? = some { b with value_ := decide (v ≠ 0) } := by
        intro b hb
        rw [hkeys, List.getElem?_modify_eq, hb]
        rfl
      refine ⟨?_, hself, hother, ?_⟩
      · have hb := hself _ (List.getElem?_eq_getElem hlt)
        by_cases hv : v ≠ 0
        · rw [if_pos hv, key_value_eq_one]
          exact ⟨_, hb, by simp [hv]⟩
        · rw [if_neg hv]
          apply key_value_eq_zero
          intro b2 hb2
          rw [hb] at hb2
          cases hb2
          simp [hv]
      · intro j hj
        unfold key_value
        rw [hlen, hother j hj]
    · intro hge
      simp only [key_count] at hge
      omega
    · intro hge
      simp only [key_count] at hge
      omega

/-! ## Draw order -/

/-- One loop of `draw`: the controls of the keys below `n` that satisfy `p`, in index
order, are added behind what was drawn before. -/
theorem draw_loop_eq (keys : List Key_Button) (p : Nat → Prop) [DecidablePred p]
    (drawn : List Key_Button) (n : Nat) :
    (List.range n).foldl (fun drawn key =>
      if p key then
        match keys[key]? with
        | some btn => drawn ++ [btn]
        | none => drawn
      else drawn) drawn =
    drawn ++ ((List.range n).filter (fun key => decide (p key))).filterMap
      (fun key => keys[key]?) := by
  induction n with
  | zero => simp
  | succ n ih =>
    rw [List.range_succ, List.foldl_append, ih, List.filter_append, List.filterMap_append]
    simp only [List.foldl_cons, List.foldl_nil]
    by_cases hp : p n
    · cases hk : keys[n]? with
      | none => simp [hp, hk]
      | some btn => simp [hp, hk]
    · simp [hp]

theorem draw_eq (s : Impl) :
    draw s =
      ((List.range s.keys_.length).filter
          (fun key => decide (Impl.key_color key = Key_White))).filterMap
        (fun key => s.keys_[key]?) ++
      ((List.range s.keys_.length).filter
          (fun key => decide (Impl.key_color key = Key_Black))).filterMap
        (fun key => s.keys_[key]?) := by
  unfold draw
  have h1 := draw_loop_eq s.keys_ (fun key => Impl.key_color key = Key_White) []
    s.keys_.length
  have h2 := draw_loop_eq s.keys_ (fun key => Impl.key_color key = Key_Black)
  simp only [List.nil_append] at h1
  simp only [h1, h2]

/-- The piano keys of the controls found in the slots `l`, all below the key count, of a
well-formed state are `l` itself. -/
theorem filterMap_keys_piano_key (s : Impl) (hwf : s.wf) (l : List Nat)
    (hl : ∀ i ∈ l, i < s.keys_.length) :
    (l.filterMap (fun key => s.keys_[key]?)).map Key_Button.piano_key = l := by
  induction l with
  | nil => rfl
  | cons i l ih =>
    have hi : i < s.keys_.length := hl i (List.mem_cons_self _ _)
    have hget : s.keys_[i]? = some s.keys_[i] := List.getElem?_eq_getElem hi
    have hkey : (s.keys_[i]).piano_key = i := hwf.2 i _ hget
    rw [List.filterMap_cons, hget]
    simp only [List.map_cons, hkey]
    rw [ih (fun j hj => hl j (List.mem_cons_of_mem _ hj))]

/-- C12: for every key count, the sequence of keys `draw` emits is all the white keys in
increasing index order followed by all the black keys in increasing index order; every key
index below the key count appears exactly once, and no black key is drawn before a white
key. -/
theorem C12_draw_order (s : Impl) (hwf : s.wf) :
    (draw s).map Key_Button.piano_key =
      (List.range (key_count s)).filter (fun key => decide (Impl.key_color key = Key_White)) ++
      (List.range (key_count s)).filter (fun key => decide (Impl.key_color key = Key_Black)) ∧
    List.Perm ((draw s).map Key_Button.piano_key) (List.range (key_count s)) ∧
    ((draw s).map Key_Button.piano_key).Nodup ∧
    (∀ (i j : Nat) (bi bj : Key_Button), i < j → (draw s)[i]? = some bi →
      (draw s)[j]? = some bj → Impl.key_color bi.piano_key = Key_Black →
      Impl.key_color bj.piano_key = Key_Black) := by
  have hshape : (draw s).map Key_Button.piano_key =
      (List.range (key_count s)).filter (fun key => decide (Impl.key_color key = Key_White)) ++
      (List.range (key_count s)).filter
        (fun key => decide (Impl.key_color key = Key_Black)) := by
    rw [draw_eq, List.map_append]
    unfold key_count
    rw [filterMap_keys_piano_key s hwf, filterMap_keys_piano_key s hwf]
    · intro i hi
      exact List.mem_range.mp (List.mem_filter.mp hi).1
    · intro i hi
      exact List.mem_range.mp (List.mem_filter.mp hi).1
  have hblack : (List.range (key_count s)).filter
        (fun key => decide (Impl.key_color key = Key_Black)) =
      (List.range (key_count s)).filter
        (fun key => !decide (Impl.key_color key = Key_White)) := by
    apply List.filter_congr
    intro k _
    rcases key_color_cases k with hc | hc <;> simp [hc]
  have hperm : List.Perm ((draw s).map Key_Button.piano_key) (List.range (key_count s)) := by
    rw [hshape, hblack]
    exact List.filter_append_perm _ _
  refine ⟨hshape, hperm, (List.Perm.nodup_iff hperm).mpr (List.nodup_range _), ?_⟩
  intro i j bi bj hij hi hj hbi
  have hi2 : ((draw s).map Key_Button.piano_key)[i]? = some bi.piano_key := by
    rw [List.getElem?_map, hi]; rfl
  have hj2 : ((draw s).map Key_Button.piano_key)[j]? = some bj.piano_key := by
    rw [List.getElem?_map, hj]; rfl
  rw [hshape] at hi2 hj2
  have hiW : ¬ i < ((List.range (key_count s)).filter
      (fun key => decide (Impl.key_color key = Key_White))).length := by
    intro hlt
    rw [List.getElem?_append_left hlt] at hi2
    have hmem := List.getElem?_mem hi2
    have := (List.mem_filter.mp hmem).2
    simp only [decide_eq_true_eq] at this
    rw [this] at hbi
    cases hbi
  rw [List.getElem?_append_right (by omega)] at hj2
  have hmem := List.getElem?_mem hj2
  have := (List.mem_filter.mp hmem).2
  simpa using this

theorem C12_draw_order_witness :
    piano3.wf ∧ (draw piano3).map Key_Button.piano_key = [0, 2, 1] :=
  ⟨piano3_wf, (C12_draw_order piano3 piano3_wf).1.trans (by rw [piano3_eq]; decide)⟩

/-! ## The colour pattern -/

/-- C13: `key_color(k)` depends only on `k mod 12`; over the residues 0 to 11 it is
W B W B W W B W B W B W, black exactly at the residues 1, 3, 6, 8, 10; so every 12
consecutive keys hold 7 white and 5 black keys, and no two black keys are adjacent. -/
theorem C13_key_color_pattern (k : Nat) :
    Impl.key_color k = Impl.key_color (k % 12) ∧
    (List.range 12).map Impl.key_color =
      [Key_White, Key_Black, Key_White, Key_Black, Key_White, Key_White, Key_Black,
        Key_White, Key_Black, Key_White, Key_Black, Key_White] ∧
    (Impl.key_color k = Key_Black ↔
      (k % 12 = 1 ∨ k % 12 = 3 ∨ k % 12 = 6 ∨ k % 12 = 8 ∨ k % 12 = 10)) ∧
    ((List.range 12).map (fun i => Impl.key_color (k + i))).count Key_White = 7 ∧
    ((List.range 12).map (fun i => Impl.key_color (k + i))).count Key_Black = 5 ∧
    ¬ (Impl.key_color k = Key_Black ∧ Impl.key_color (k + 1) = Key_Black) := by
  have hlt : k % 12 < 12 := Nat.mod_lt _ (by decide)
  have hshift : ∀ i, Impl.key_color (k + i) = Impl.key_color (k % 12 + i) := by
    intro i
    rw [key_color_mod (k + i), key_color_mod (k % 12 + i)]
    congr 1
    omega
  refine ⟨key_color_mod k, by decide, ?_, ?_, ?_, ?_⟩
  · rw [key_color_mod k]
    generalize k % 12 = r at hlt
    interval_cases r <;> decide
  · simp only [hshift]
    generalize k % 12 = r at hlt
    interval_cases r <;> decide
  · simp only [hshift]
    generalize k % 12 = r at hlt
    interval_cases r <;> decide
  · rintro ⟨h1, h2⟩
    have := key_color_succ_white k (by rw [h1]; decide)
    rw [this] at h2
    cases h2

/-! ## Pointer events that change nothing -/

/-- C15: a pointer-down or pointer-drag whose point hit-tests to the currently tracked
pushed key, or to no key at all, leaves the whole state as it was: no event is fired, and
every key's value and the tracked pushed key are unchanged. -/
theorem C15_pointer_same_key_or_miss (s : Impl) (event x y : Int)
    (hev : event = FL_PUSH ∨ event = FL_DRAG)
    (hhit : Impl.key_at s x y = none ∨
      ∃ b, Impl.key_at s x y = some b ∧ b.piano_key = s.pushed_key_) :
    Impl.handle_key s event x y = (s, 1) ∧
    (Impl.handle_key s event x y).1.callbacks_ = s.callbacks_ ∧
    (∀ j, key_value (Impl.handle_key s event x y).1 j = key_value s j) ∧
    (Impl.handle_key s event x y).1.pushed_key_ = s.pushed_key_ := by
  have h : Impl.handle_key s event x y = (s, 1) := by
    rcases hhit with hmiss | ⟨b, hb, hsame⟩
    · exact handle_key_miss s event hev x y hmiss
    · exact handle_key_same s event hev x y b hb hsame
  rw [h]
  exact ⟨rfl, rfl, fun _ => rfl, rfl⟩

theorem C15_pointer_same_key_or_miss_witness :
    ((FL_DRAG = FL_PUSH ∨ FL_DRAG = FL_DRAG) ∧
      (∃ b, Impl.key_at piano3_two_pressed 5 15 = some b ∧
        b.piano_key = piano3_two_pressed.pushed_key_) ∧
      Impl.key_at piano3_two_pressed 100 100 = none) ∧
    (Impl.handle_key piano3_two_pressed FL_DRAG 5 15 = (piano3_two_pressed, 1) ∧
      (Impl.handle_key piano3_two_pressed FL_DRAG 5 15).1.callbacks_ =
        piano3_two_pressed.callbacks_ ∧
      (∀ j, key_value (Impl.handle_key piano3_two_pressed FL_DRAG 5 15).1 j =
        key_value piano3_two_pressed j) ∧
      (Impl.handle_key piano3_two_pressed FL_DRAG 5 15).1.pushed_key_ =
        piano3_two_pressed.pushed_key_) ∧
    Impl.handle_key piano3_two_pressed FL_DRAG 100 100 = (piano3_two_pressed, 1) :=
  have hsame : ∃ b, Impl.key_at piano3_two_pressed 5 15 = some b ∧
      b.piano_key = piano3_two_pressed.pushed_key_ := by
    rw [piano3_two_pressed_eq]; exact ⟨_, rfl, rfl⟩
  have hmiss : Impl.key_at piano3_two_pressed 100 100 = none := by
    rw [piano3_two_pressed_eq]; rfl
  ⟨⟨Or.inr rfl, hsame, hmiss⟩,
    C15_pointer_same_key_or_miss piano3_two_pressed FL_DRAG 5 15 (Or.inr rfl) (Or.inr hsame),
    (C15_pointer_same_key_or_miss piano3_two_pressed FL_DRAG 100 100 (Or.inr rfl)
      (Or.inl hmiss)).1⟩

/-! ## One pointer, one pressed key -/

/-- Releasing the tracked pushed key of a state that meets the pointer invariant leaves
every key released. -/
theorem release_pushed_all_released (s : Impl) (hwf : s.wf) (hinv : s.single_pressed) :
    (release_key s s.pushed_key_).1.keys_.length = s.keys_.length ∧
    ∀ (i : Nat) (b : Key_Button), (release_key s s.pushed_key_).1.keys_[i]? = some b →
      b.value_ = false := by
  rcases hinv.1 with hnone | hlt
  · rw [hnone, release_key_unsigned_minus_one s hwf.1]
    refine ⟨rfl, ?_⟩
    intro i b hb
    have hb : s.keys_[i]? = some b := hb
    have hne : i ≠ s.pushed_key_ := by
      have h1 := getElem?_lt_length hb
      have h2 := hwf.1
      rw [hnone]
      unfold unsigned_minus_one
      omega
    cases hv : b.value_
    · rfl
    · exact absurd ((hinv.2 i b hb).mp hv) hne
  · have hget : s.keys_[s.pushed_key_]? = some s.keys_[s.pushed_key_] :=
      List.getElem?_eq_getElem hlt
    have hv : (s.keys_[s.pushed_key_]).value_ = true := (hinv.2 _ _ hget).mpr rfl
    rw [release_key_pressed s _ _ hget hv]
    refine ⟨by simp, ?_⟩
    intro i b hb
    by_cases hi : s.pushed_key_ = i
    · subst hi
      simp only [List.getElem?_set_self hlt, Option.some.injEq] at hb
      rw [← hb]
    · simp only [List.getElem?_set_ne hi] at hb
      cases hv2 : b.value_
      · rfl
      · exact absurd ((hinv.2 i b hb).mp hv2).symm hi

theorem single_pressed_handle_key (s : Impl) (hwf : s.wf) (hinv : s.single_pressed)
    (event x y : Int) : (Impl.handle_key s event x y).1.single_pressed := by
  by_cases h : event = FL_PUSH ∨ event = FL_DRAG
  · cases hb : Impl.key_at s x y with
    | none => rw [handle_key_miss s event h x y hb]; exact hinv
    | some b =>
      by_cases heq : b.piano_key = s.pushed_key_
      · rw [handle_key_same s event h x y b hb heq]; exact hinv
      · rw [handle_key_move s event h x y b hb heq]
        obtain ⟨hlen, hrel⟩ := release_pushed_all_released s hwf hinv
        have hkb : s.keys_[b.piano_key]? = some b := key_at_some_wf s hwf x y b hb
        have hltB : b.piano_key < s.keys_.length := getElem?_lt_length hkb
        have hltB1 : b.piano_key < (release_key s s.pushed_key_).1.keys_.length := by
          rw [hlen]; exact hltB
        have hget := List.getElem?_eq_getElem hltB1
        rw [press_key_released _ _ _ hget (hrel _ _ hget)]
        refine ⟨Or.inr (by simpa using hltB1), ?_⟩
        intro i c hc
        by_cases hi : b.piano_key = i
        · subst hi
          simp only [List.getElem?_set_self hltB1, Option.some.injEq] at hc
          rw [← hc]
          simp
        · simp only [List.getElem?_set_ne hi] at hc
          have := hrel i c hc
          simp only [this, Bool.false_eq_true, false_iff]
          exact fun h2 => hi h2.symm
  · by_cases h2 : event = FL_RELEASE
    · subst h2
      rw [handle_key_release]
      obtain ⟨_, hrel⟩ := release_pushed_all_released s hwf hinv
      refine ⟨Or.inl rfl, ?_⟩
      intro i c hc
      have hc : (release_key s s.pushed_key_).1.keys_[i]? = some c := hc
      have hv := hrel i c hc
      have hlt := getElem?_lt_length hc
      have hwf1 := (wf_release_key s hwf s.pushed_key_).1
      simp only [hv, Bool.false_eq_true, false_iff]
      show i ≠ unsigned_minus_one
      unfold unsigned_minus_one
      omega
    · rw [handle_key_other s event h h2]; exact hinv

theorem pointer_events_invariant (s : Impl) (hwf : s.wf) (hinv : s.single_pressed)
    (events : List (Int × Int × Int)) :
    (pointer_events s events).wf ∧ (pointer_events s events).single_pressed := by
  induction events generalizing s with
  | nil => exact ⟨hwf, hinv⟩
  | cons e es ih =>
    exact ih _ (wf_handle_key s hwf e.1 e.2.1 e.2.2)
      (single_pressed_handle_key s hwf hinv e.1 e.2.1 e.2.2)

theorem create_keys_released (s : Impl) (nkeys : Nat) (i : Nat) (b : Key_Button)
    (h : (Impl.create_keys s nkeys).keys_[i]? = some b) : b.value_ = false := by
  have hlt : i < nkeys := by
    have := getElem?_lt_length h
    rw [create_keys_keys] at this
    simpa using this
  rw [create_keys_getElem? s nkeys i hlt] at h
  cases h
  unfold Impl.create_keys_button
  split <;> rfl

theorem create_keys_pushed_key (s : Impl) (nkeys : Nat) :
    (Impl.create_keys s nkeys).pushed_key_ = s.pushed_key_ := by
  unfold Impl.create_keys
  split <;> rfl

/-- A freshly built widget: well formed, no tracked pushed key, every key released. -/
theorem new_fresh (x y w h : Int) :
    (new x y w h).wf ∧ (new x y w h).pushed_key_ = unsigned_minus_one ∧
    ∀ (i : Nat) (b : Key_Button), (new x y w h).keys_[i]? = some b → b.value_ = false :=
  ⟨wf_create_keys _ 48 (by decide), create_keys_pushed_key _ 48,
    fun i b hb => create_keys_released _ 48 i b hb⟩

/-- C14: in every state reached from a freshly built widget (well formed, every key
released, no tracked pushed key) by any sequence of pointer-down, pointer-drag and
pointer-up events (or other events, which `handle_key` ignores), at most one key is
pressed; no key is pressed when no key is tracked as pushed, and when the tracked pushed
key is `p` then `p` is a key of the widget and the pressed keys are exactly `p`. -/
theorem C14_single_pressed_key (s0 : Impl) (hwf : s0.wf)
    (hnone : s0.pushed_key_ = unsigned_minus_one)
    (hrel : ∀ (i : Nat) (b : Key_Button), s0.keys_[i]? = some b → b.value_ = false)
    (events : List (Int × Int × Int)) :
    (∀ i j, key_value (pointer_events s0 events) i = 1 →
      key_value (pointer_events s0 events) j = 1 → i = j) ∧
    ((pointer_events s0 events).pushed_key_ = unsigned_minus_one →
      ∀ i, key_value (pointer_events s0 events) i = 0) ∧
    ((pointer_events s0 events).pushed_key_ ≠ unsigned_minus_one →
      (pointer_events s0 events).pushed_key_ < key_count (pointer_events s0 events) ∧
      ∀ i, (key_value (pointer_events s0 events) i = 1 ↔
        i = (pointer_events s0 events).pushed_key_)) := by
  have hinv0 : s0.single_pressed := by
    refine ⟨Or.inl hnone, ?_⟩
    intro i b hb
    have hlt := getElem?_lt_length hb
    have h2 := hwf.1
    simp only [hrel i b hb, Bool.false_eq_true, false_iff, hnone]
    unfold unsigned_minus_one
    omega
  obtain ⟨hwf1, hinv⟩ := pointer_events_invariant s0 hwf hinv0 events
  generalize pointer_events s0 events = s at hwf1 hinv
  have hone : ∀ i, key_value s i = 1 → i = s.pushed_key_ := by
    intro i hi
    obtain ⟨b, hb, hv⟩ := (key_value_eq_one s i).mp hi
    exact (hinv.2 i b hb).mp hv
  refine ⟨?_, ?_, ?_⟩
  · intro i j hi hj
    rw [hone i hi, hone j hj]
  · intro hp i
    apply key_value_eq_zero
    intro b hb
    have hlt := getElem?_lt_length hb
    have h2 := hwf1.1
    cases hv : b.value_
    · rfl
    · have := (hinv.2 i b hb).mp hv
      rw [hp] at this
      unfold unsigned_minus_one at this
      omega
  · intro hp
    have hlt : s.pushed_key_ < s.keys_.length := by
      rcases hinv.1 with h | h
      · exact absurd h hp
      · exact h
    refine ⟨hlt, ?_⟩
    intro i
    constructor
    · exact hone i
    · intro hi
      subst hi
      rw [key_value_eq_one]
      exact ⟨_, List.getElem?_eq_getElem hlt,
        (hinv.2 _ _ (List.getElem?_eq_getElem hlt)).mpr rfl⟩

theorem C14_single_pressed_key_witness :
    ((new 0 0 672 100).wf ∧ (new 0 0 672 100).pushed_key_ = unsigned_minus_one ∧
      ∀ (i : Nat) (b : Key_Button), (new 0 0 672 100).keys_[i]? = some b →
        b.value_ = false) ∧
    ∀ i j,
      key_value (pointer_events (new 0 0 672 100)
        [(FL_PUSH, 5, 80), (FL_DRAG, 30, 80), (FL_RELEASE, 30, 80), (FL_PUSH, 20, 10)]) i = 1 →
      key_value (pointer_events (new 0 0 672 100)
        [(FL_PUSH, 5, 80), (FL_DRAG, 30, 80), (FL_RELEASE, 30, 80), (FL_PUSH, 20, 10)]) j = 1 →
      i = j :=
  ⟨new_fresh 0 0 672 100,
    (C14_single_pressed_key (new 0 0 672 100) (new_fresh 0 0 672 100).1
      (new_fresh 0 0 672 100).2.1 (new_fresh 0 0 672 100).2.2
      [(FL_PUSH, 5, 80), (FL_DRAG, 30, 80), (FL_RELEASE, 30, 80), (FL_PUSH, 20, 10)]).1⟩


/-! ## The reference layout -/

theorem key_offset_eq (key : Nat) :
    key_offset key =
      [0, 15, 24, 43, 48, 72, 85, 96, 113, 120, 141, 144].getD (key % 12) 0 +
        ((key / 12 : Nat) : Int) * 168 := by
  unfold key_offset
  rw [keypos_eq]
  simp only [List.getD_cons_succ, List.getD_cons_zero]
  ring

/-- The reference offset `key_position` returns is the whole-number offset reduced to a
32-bit `int`. -/
theorem key_position_eq_offset (key : Nat) :
    Impl.key_position key = int32 (key_offset key) := by
  rw [key_position_eq, key_offset_eq]

/-- Up to key 153391689 the arithmetic of `key_position` does not overflow. -/
theorem key_position_eq_offset_exact (key : Nat) (h : key ≤ 153391689) :
    Impl.key_position key = key_offset key := by
  rw [key_position_exact key h, key_offset_eq]

/-- Each octave is 168 units further right. -/
theorem key_offset_add_octaves (m q : Nat) :
    key_offset (m + 12 * q) = key_offset m + 168 * (q : Int) := by
  rw [key_offset_eq, key_offset_eq, Nat.add_mul_mod_self_left,
    Nat.add_mul_div_left _ _ (by decide : 0 < 12)]
  push_cast
  ring

theorem key_color_add_octaves (m q : Nat) :
    Impl.key_color (m + 12 * q) = Impl.key_color m := by
  rw [key_color_mod (m + 12 * q), key_color_mod m, Nat.add_mul_mod_self_left]

/-- The reference width of a white key of the first octave. -/
theorem key_offset_first_octave :
    ∀ r : Nat, r < 12 → Impl.key_color r = Key_White →
      key_offset (if Impl.key_color (r + 1) = Key_White then r + 1 else r + 2) -
        key_offset r = 24 := by
  decide

/-- The next white key of a white key below the unsigned wrap is 24 units further right. -/
theorem key_offset_next_white (k : Nat) (hk : k + 2 < 2 ^ 32)
    (hc : Impl.key_color k = Key_White) :
    key_offset (Impl.next_white_key k) = key_offset k + 24 := by
  have hkq : k = k % 12 + 12 * (k / 12) := (Nat.mod_add_div k 12).symm
  have hr : k % 12 < 12 := Nat.mod_lt _ (by decide)
  have hcr : Impl.key_color (k % 12) = Key_White := by rw [← key_color_mod]; exact hc
  have h1 : Impl.key_color (k + 1) = Impl.key_color (k % 12 + 1) := by
    have : k + 1 = (k % 12 + 1) + 12 * (k / 12) := by omega
    rw [this, key_color_add_octaves]
  have hp0 : key_offset k = key_offset (k % 12) + 168 * ((k / 12 : Nat) : Int) := by
    have := key_offset_add_octaves (k % 12) (k / 12)
    rw [← hkq] at this
    exact this
  have hp1 : key_offset (k + 1) =
      key_offset (k % 12 + 1) + 168 * ((k / 12 : Nat) : Int) := by
    have : k + 1 = (k % 12 + 1) + 12 * (k / 12) := by omega
    rw [this, key_offset_add_octaves]
  have hp2 : key_offset (k + 2) =
      key_offset (k % 12 + 2) + 168 * ((k / 12 : Nat) : Int) := by
    have : k + 2 = (k % 12 + 2) + 12 * (k / 12) := by omega
    rw [this, key_offset_add_octaves]
  have hfirst := key_offset_first_octave (k % 12) hr hcr
  rw [next_white_key_eq k hk, h1]
  by_cases hw : Impl.key_color (k % 12 + 1) = Key_White
  · rw [if_pos hw] at hfirst ⊢
    rw [hp1, hp0]
    omega
  · rw [if_neg hw] at hfirst ⊢
    rw [hp2, hp0]
    omega

/-- The reference width of a white key below the unsigned wrap is 24, also where the
offsets have overflowed: the difference of the two wrapped offsets wraps back. -/
theorem key_width_white (k : Nat) (hk : k + 2 < 2 ^ 32) (hc : Impl.key_color k = Key_White) :
    Impl.key_width k = 24 := by
  unfold Impl.key_width
  rw [if_pos hc, key_position_eq_offset, key_position_eq_offset,
    key_offset_next_white k hk hc]
  unfold int32
  omega

theorem key_width_black (k : Nat) (hc : Impl.key_color k = Key_Black) :
    Impl.key_width k = 14 := by
  unfold Impl.key_width
  have : ¬ Impl.key_color k = Key_White := by rw [hc]; decide
  rw [if_neg this]
  rfl

/-- One octave up, as `key_position` computes it in 32-bit arithmetic. -/
theorem key_position_add_octave (k : Nat) :
    Impl.key_position (k + 12) = int32 (Impl.key_position k + 168) := by
  have h := key_offset_add_octaves k 1
  simp only [Nat.mul_one, Nat.cast_one, mul_one] at h
  rw [key_position_eq_offset, key_position_eq_offset, h]
  unfold int32
  omega

/-- C16: with the reference table built by `make_positions`, for every key `k` below the
unsigned wrap: within the range where the `int` arithmetic does not overflow (keys up to
153391689), `key_position(k + 12) = key_position(k) + 7 * 24`, and in every case
`key_position(k + 12)` is that sum reduced to a 32-bit `int`; `key_width(k) = 24` for every
white key `k`, also the last white key of an octave, and `key_width(k) = 14` for every black
key `k`. -/
theorem C16_reference_layout (k : Nat) (hk : k + 2 < 2 ^ 32) :
    Impl.keypos_ = Impl.make_positions (List.replicate 12 0) ∧
    white_keywidth = 24 ∧ black_keywidth = 14 ∧
    (k + 12 ≤ 153391689 →
      Impl.key_position (k + 12) = Impl.key_position k + 7 * white_keywidth) ∧
    Impl.key_position (k + 12) = int32 (Impl.key_position k + 7 * white_keywidth) ∧
    (Impl.key_color k = Key_White → Impl.key_width k = white_keywidth) ∧
    (Impl.key_color k = Key_Black → Impl.key_width k = black_keywidth) := by
  refine ⟨rfl, rfl, rfl, ?_, key_position_add_octave k, key_width_white k hk,
    key_width_black k⟩
  intro hr
  have h := key_offset_add_octaves k 1
  simp only [Nat.mul_one, Nat.cast_one, mul_one] at h
  rw [key_position_eq_offset_exact (k + 12) hr, key_position_eq_offset_exact k (by omega), h]
  rfl

theorem C16_reference_layout_witness :
    (11 + 2 < 2 ^ 32 ∧ 11 + 12 ≤ 153391689 ∧ Impl.key_color 11 = Key_White ∧
      Impl.key_color 12 = Key_White) ∧
    Impl.key_position (11 + 12) = Impl.key_position 11 + 7 * white_keywidth ∧
    Impl.key_width 11 = white_keywidth :=
  ⟨⟨by decide, by decide, by decide, by decide⟩,
    (C16_reference_layout 11 (by decide)).2.2.2.1 (by decide),
    (C16_reference_layout 11 (by decide)).2.2.2.2.2.1 (by decide)⟩

/-! ## The next white key -/

/-- The counting loop, one step unfolded. -/
theorem next_white_key_steps_eq (nextkey : Nat) :
    Impl.next_white_key_steps nextkey =
      if Impl.key_color nextkey ≠ Key_White then
        Impl.next_white_key_steps ((nextkey + 1) % 2 ^ 32) + 1
      else 0 := by
  rw [Impl.next_white_key_steps]

/-- C18: for every key index `k` with `k + 2` below the unsigned wrap, the loop of
`next_white_key` stops after running its body at most once: `next_white_key(k)` is a white
key, is `k + 1` or `k + 2`, and every index strictly between `k` and `next_white_key(k)` is
a black key. -/
theorem C18_next_white_key (k : Nat) (hk : k + 2 < 2 ^ 32) :
    Impl.key_color (Impl.next_white_key k) = Key_White ∧
    (Impl.next_white_key k = k + 1 ∨ Impl.next_white_key k = k + 2) ∧
    (∀ j, k < j → j < Impl.next_white_key k → Impl.key_color j = Key_Black) ∧
    Impl.next_white_key_steps ((k + 1) % 2 ^ 32) ≤ 1 ∧
    Impl.next_white_key k = k + 1 + Impl.next_white_key_steps ((k + 1) % 2 ^ 32) := by
  have heq := next_white_key_eq k hk
  have hsteps : Impl.next_white_key_steps ((k + 1) % 2 ^ 32) =
      if Impl.key_color (k + 1) = Key_White then 0 else 1 := by
    rw [Nat.mod_eq_of_lt (by omega), next_white_key_steps_eq]
    by_cases h : Impl.key_color (k + 1) = Key_White
    · simp [h]
    · have h2 := key_color_succ_white (k + 1) h
      simp only [ne_eq, h, not_false_eq_true, if_true, if_false]
      rw [Nat.mod_eq_of_lt (by omega), next_white_key_steps_eq]
      simp [h2]
  by_cases h : Impl.key_color (k + 1) = Key_White
  · rw [if_pos h] at heq hsteps
    rw [heq, hsteps]
    refine ⟨h, Or.inl rfl, ?_, by decide, rfl⟩
    intro j h1 h2
    omega
  · rw [if_neg h] at heq hsteps
    rw [heq, hsteps]
    refine ⟨key_color_succ_white (k + 1) h, Or.inr rfl, ?_, by decide, rfl⟩
    intro j h1 h2
    have : j = k + 1 := by omega
    subst this
    rcases key_color_cases (k + 1) with hc | hc
    · exact absurd hc h
    · exact hc

theorem C18_next_white_key_witness :
    (1 + 2 < 2 ^ 32 ∧ 2 + 2 < 2 ^ 32) ∧
    (Impl.next_white_key 1 = 1 + 1 ∨ Impl.next_white_key 1 = 1 + 2) ∧
    Impl.key_color (Impl.next_white_key 2) = Key_White ∧
    Impl.next_white_key_steps ((2 + 1) % 2 ^ 32) ≤ 1 :=
  ⟨⟨by decide, by decide⟩, (C18_next_white_key 1 (by decide)).2.1,
    (C18_next_white_key 2 (by decide)).1, (C18_next_white_key 2 (by decide)).2.2.2.1⟩


/-! ## The nominal width -/

theorem key_offset_nonneg (k : Nat) : 0 ≤ key_offset k := by
  rw [key_offset_eq]
  have h1 : (0 : Int) ≤ ((k / 12 : Nat) : Int) * 168 := by positivity
  have h2 := (keypos_getD_range (k % 12)).1
  omega

theorem key_offset_lt_succ (k : Nat) : key_offset k < key_offset (k + 1) := by
  have hfirst : ∀ r : Nat, r < 12 → key_offset r < key_offset (r + 1) := by
    decide
  have hr : k % 12 < 12 := Nat.mod_lt _ (by decide)
  have h0 := key_offset_add_octaves (k % 12) (k / 12)
  have h1 := key_offset_add_octaves (k % 12 + 1) (k / 12)
  have e0 : k % 12 + 12 * (k / 12) = k := Nat.mod_add_div k 12
  have e1 : k % 12 + 1 + 12 * (k / 12) = k + 1 := by omega
  rw [e0] at h0
  rw [e1] at h1
  have := hfirst (k % 12) hr
  omega

theorem key_offset_lt (j k : Nat) (h : j < k) : key_offset j < key_offset k := by
  induction k with
  | zero => omega
  | succ n ih =>
    have hs := key_offset_lt_succ n
    rcases Nat.lt_succ_iff_lt_or_eq.mp h with hlt | heq
    · have := ih hlt
      omega
    · rw [heq]
      exact hs

/-- Up to key 153391689 the reference offsets are non-negative. -/
theorem key_position_nonneg (k : Nat) (h : k ≤ 153391689) : 0 ≤ Impl.key_position k := by
  rw [key_position_eq_offset_exact k h]
  exact key_offset_nonneg k

/-- Up to key 153391689 the reference offsets are strictly increasing. -/
theorem key_position_lt (j k : Nat) (hjk : j < k) (h : k ≤ 153391689) :
    Impl.key_position j < Impl.key_position k := by
  rw [key_position_eq_offset_exact k h, key_position_eq_offset_exact j (by omega)]
  exact key_offset_lt j k hjk

/-- The right end of a key up to 153391688 fits a 32-bit `int`. -/
theorem key_offset_add_width_lt (k : Nat) (h : k ≤ 153391688) :
    (Impl.key_color k = Key_White → key_offset k + 24 < 2 ^ 31) ∧
    (Impl.key_color k = Key_Black → key_offset k + 14 < 2 ^ 31) := by
  have hr : k % 12 < 12 := Nat.mod_lt _ (by decide)
  have hk2 : 12 * (k / 12) + k % 12 ≤ 153391688 := by omega
  rw [key_offset_eq, key_color_mod k]
  generalize k % 12 = r at hr hk2 ⊢
  generalize k / 12 = q at hk2 ⊢
  interval_cases r <;> refine ⟨fun hc => ?_, fun hc => ?_⟩ <;>
    first
    | exact absurd hc (by decide)
    | (simp only [List.getD_cons_succ, List.getD_cons_zero]
       omega)

/-- The nominal full width `create_keys` computes for up to 153391689 keys: no overflow, and
at least 14. -/
theorem nominal_width_ge (N : Nat) (hN : 1 ≤ N) (hN2 : N ≤ 153391689) :
    Impl.create_keys_fullw N = Impl.key_position (N - 1) + Impl.key_width (N - 1) ∧
    14 ≤ Impl.create_keys_fullw N := by
  have hpos := key_offset_nonneg (N - 1)
  have hfit := key_offset_add_width_lt (N - 1) (by omega)
  have hexact := key_position_eq_offset_exact (N - 1) (by omega)
  unfold Impl.create_keys_fullw
  rcases key_color_cases (N - 1) with hc | hc
  · have h24 := hfit.1 hc
    rw [key_width_white (N - 1) (by omega) hc, hexact,
      int32_of_range _ (by omega) (by omega)]
    exact ⟨rfl, by omega⟩
  · have h14 := hfit.2 hc
    rw [key_width_black (N - 1) hc, hexact, int32_of_range _ (by omega) (by omega)]
    exact ⟨rfl, by omega⟩

/-- For a white last key the nominal full width is the reference offset of the next white
key, in every case. -/
theorem nominal_width_white (N : Nat) (hlast : Impl.key_color (N - 1) = Key_White) :
    Impl.create_keys_fullw N = Impl.key_position (Impl.next_white_key (N - 1)) := by
  unfold Impl.create_keys_fullw Impl.key_width
  rw [if_pos hlast, int32_int32_sub, key_position_eq_offset]
  have h := int32_range (key_offset (Impl.next_white_key (N - 1)))
  exact int32_of_range _ h.1 h.2

/-- With 153391690 keys the sum that forms the nominal full width overflows. -/
theorem nominal_width_153391690 :
    Impl.key_position (153391690 - 1) = 2147483640 ∧
    Impl.key_width (153391690 - 1) = 24 ∧
    Impl.key_position 153391690 = -2147483635 ∧
    Impl.create_keys_fullw 153391690 = -2147483632 := by
  have hp : Impl.key_position (153391690 - 1) = 2147483640 := by decide
  have hw : Impl.key_width (153391690 - 1) = 24 :=
    key_width_white _ (by decide) (by decide)
  refine ⟨hp, hw, by decide, ?_⟩
  unfold Impl.create_keys_fullw
  rw [hp, hw]
  decide

/-- With 920350134 keys the last key is white and the nominal full width, computed in 32-bit
arithmetic, is 0. -/
theorem nominal_width_920350134 :
    Impl.key_color (920350134 - 1) = Key_White ∧
    Impl.next_white_key (920350134 - 1) = 920350135 ∧
    Impl.key_position 920350135 = 0 ∧
    Impl.create_keys_fullw 920350134 = 0 := by
  have hc : Impl.key_color (920350134 - 1) = Key_White := by decide
  have hn : Impl.next_white_key (920350134 - 1) = 920350135 := by
    rw [next_white_key_eq _ (by decide)]
    decide
  have hp : Impl.key_position 920350135 = 0 := by decide
  refine ⟨hc, hn, hp, ?_⟩
  rw [nominal_width_white _ hc, hn, hp]

/-- C19, as the code has it: for every key count `N` from 1 to 153391689, the range in which
the 32-bit `int` arithmetic of `key_position` and of the sum does not overflow, the nominal
full width `key_position(N - 1) + key_width(N - 1)` that `create_keys` computes is at least
14, hence strictly positive, and the division that forms the stretch ratio has a non-zero
divisor and a finite result; up to key 153391689 `key_position` is non-negative and strictly
increasing in the key index. -/
theorem C19_nominal_width_positive (N : Nat) (hN : 1 ≤ N) (hN2 : N ≤ 153391689) :
    Impl.create_keys_fullw N = Impl.key_position (N - 1) + Impl.key_width (N - 1) ∧
    14 ≤ Impl.create_keys_fullw N ∧
    0 < Impl.create_keys_fullw N ∧
    (∀ s : Impl, ∃ r : ℚ, Impl.create_keys_wr s N = some r) ∧
    (∀ k, k ≤ 153391689 → 0 ≤ Impl.key_position k) ∧
    (∀ j k, j < k → k ≤ 153391689 → Impl.key_position j < Impl.key_position k) := by
  have h := nominal_width_ge N hN hN2
  refine ⟨h.1, h.2, by omega, ?_, key_position_nonneg, key_position_lt⟩
  intro s
  have hne : ((Impl.create_keys_fullw N : Int) : ℚ) ≠ 0 := by
    have hpos : (0 : Int) < Impl.create_keys_fullw N := by omega
    exact_mod_cast (ne_of_gt hpos)
  refine ⟨round_double ((s.w : ℚ) / (Impl.create_keys_fullw N : ℚ)), ?_⟩
  simp [Impl.create_keys_wr, double_div, double_of_int, hne]

/-- C19 fails as stated. For the key count 153391690 the last key is at offset 2147483640
and 24 wide, the sum overflows a 32-bit `int`, and the nominal full width is -2147483632;
the offset of key 153391690 is negative and below that of key 153391689. For the key count
920350134 the nominal full width is 0 and the division has no finite result. -/
theorem C19_counterexample :
    1 ≤ 153391690 ∧ Impl.create_keys_fullw 153391690 = -2147483632 ∧
    ¬ 0 < Impl.create_keys_fullw 153391690 ∧
    ¬ 0 ≤ Impl.key_position 153391690 ∧
    ¬ Impl.key_position (153391690 - 1) < Impl.key_position 153391690 ∧
    1 ≤ 920350134 ∧ Impl.create_keys_fullw 920350134 = 0 ∧
    Impl.create_keys_wr (Impl.init 0 0 672 100) 920350134 = none := by
  obtain ⟨hp, _, hq, hf⟩ := nominal_width_153391690
  obtain ⟨_, _, _, hz⟩ := nominal_width_920350134
  refine ⟨by decide, hf, ?_, ?_, ?_, by decide, hz, ?_⟩
  · rw [hf]; decide
  · rw [hq]; decide
  · rw [hp, hq]; decide
  · unfold Impl.create_keys_wr
    rw [hz]
    exact (scaled_zero_divisor _ 0).1

theorem C19_nominal_width_positive_witness :
    (1 ≤ 48 ∧ 48 ≤ 153391689) ∧
    14 ≤ Impl.create_keys_fullw 48 ∧
    0 < Impl.create_keys_fullw 48 :=
  ⟨⟨by decide, by decide⟩, (C19_nominal_width_positive 48 (by decide) (by decide)).2.1,
    (C19_nominal_width_positive 48 (by decide) (by decide)).2.2.1⟩

/-! ## The white keys cover the widget -/

end Flw_Piano
